import Mathlib

/-!
Verification development for the oxapy repository.

Python strings are modelled as `List Char`.  The POSIX path functions
(`os.path.join`, `os.path.normpath`, `os.path.abspath`) used by
`src/oxapy/__init__.py` are translated from CPython's `posixpath` module;
`os.getcwd()` is passed around as an explicit `cwd` argument.
-/

namespace Oxapy

/-- A Python string, modelled as its list of characters. -/
abbrev PyStr := List Char

/-- Split a string at every `'/'`, keeping empty pieces,
as Python's `path.split(sep)` does inside `posixpath.normpath`. -/
def splitSep (l : PyStr) : List PyStr :=
  l.foldr
    (fun c acc =>
      if c = '/' then [] :: acc
      else
        match acc with
        | [] => [[c]]
        | a :: rest => (c :: a) :: rest)
    [[]]

/-- Interleave `'/'` between components, as Python's `sep.join(comps)`. -/
def joinSep : List PyStr → PyStr
  | [] => []
  | [x] => x
  | x :: rest => x ++ '/' :: joinSep rest

/-- `posixpath.isabs`: a POSIX path is absolute iff it starts with `'/'`. -/
def isabs (p : PyStr) : Bool := p.take 1 = ['/']

/-- The leading-slash count preserved by `posixpath.normpath`:
`1` for a path starting with one slash, `2` for exactly two leading slashes
(POSIX keeps a double-slash root), `1` again for three or more, `0` for a
relative path. -/
def initialSlashes (p : PyStr) : Nat :=
  if p.take 1 = ['/'] then
    if p.take 2 = ['/', '/'] ∧ p.take 3 ≠ ['/', '/', '/'] then 2 else 1
  else 0

/-- One step of `posixpath.normpath`'s component loop: drop empty and `"."`
components, pop on `".."` (except at a relative root or after a kept `".."`). -/
def normStep (k : Nat) (acc : List PyStr) (comp : PyStr) : List PyStr :=
  if comp = [] ∨ comp = ['.'] then acc
  else if comp ≠ ['.', '.'] ∨ (k = 0 ∧ acc = []) ∨ acc.getLast? = some ['.', '.'] then
    acc ++ [comp]
  else acc.dropLast

/-- `posixpath.normpath` translated from CPython. -/
def normpath (p : PyStr) : PyStr :=
  if p = [] then ['.']
  else
    let k := initialSlashes p
    let comps := (splitSep p).foldl (normStep k) []
    let body := List.replicate k '/' ++ joinSep comps
    if body = [] then ['.'] else body

/-- `posixpath.join` for two arguments, translated from CPython. -/
def osJoin (a b : PyStr) : PyStr :=
  if b.take 1 = ['/'] then b
  else if a = [] ∨ a.getLast? = some '/' then a ++ b
  else a ++ '/' :: b

/-- `os.path.abspath`, with the current working directory explicit. -/
def abspath (cwd p : PyStr) : PyStr :=
  if isabs p then normpath p else normpath (osJoin cwd p)

/-- The exception kinds raised by `src/oxapy/__init__.py`
(`exceptions.ForbiddenError`, `exceptions.NotFoundError`). -/
inductive PyErr where
  | forbidden
  | notFound
  deriving DecidableEq, Repr

/-- `secure_join` from `src/oxapy/__init__.py`:
absolutize the base, normalize the join of base and user path, and raise
`ForbiddenError` unless the target extends `base + os.sep`. -/
def secure_join (cwd base userPath : PyStr) : Except PyErr PyStr :=
  let b := abspath cwd base
  let target := normpath (osJoin b userPath)
  if (b ++ ['/']).isPrefixOf target then .ok target else .error .forbidden

/-- The nonempty segments (directory-entry names) of a path string. -/
def segs (p : PyStr) : List PyStr := (splitSep p).filter (· ≠ [])

/-- Count of leading `'/'` characters. -/
def leadSlashes : PyStr → Nat
  | '/' :: rest => leadSlashes rest + 1
  | _ => 0

/-- Specification-side notion for claims C1/C9: `t` names a filesystem entry
strictly inside the directory named by `b` — both are absolute with the same
root flavour, `t`'s segment list strictly extends `b`'s, and `t` is free of
`"."`/`".."` segments, so the extension cannot climb back out. -/
def strictlyInside (b t : PyStr) : Prop :=
  isabs b = true ∧ isabs t = true ∧ leadSlashes t = leadSlashes b ∧
    segs b <+: segs t ∧ segs b ≠ segs t ∧
    ['.', '.'] ∉ segs t ∧ ['.'] ∉ segs t

instance (b t : PyStr) : Decidable (strictlyInside b t) := by
  unfold strictlyInside; infer_instance

-- sanity checks against CPython behavior (to be removed)

/-- The component list produced by `normpath`'s loop. -/
def normComps (p : PyStr) : List PyStr :=
  (splitSep p).foldl (normStep (initialSlashes p)) []

/-- Invariant on components kept by `normpath`: nonempty, slash-free, not `"."`,
and (on an absolute path) not `".."`. -/
def GoodComp (k : Nat) (x : PyStr) : Prop :=
  x ≠ [] ∧ '/' ∉ x ∧ x ≠ ['.'] ∧ (k ≠ 0 → x ≠ ['.', '.'])

/-- Abstract filesystem state consumed by `send_file`
(`os.path.exists`, `os.path.isfile`, reading a file's bytes). -/
structure FileSystem where
  pathExists : PyStr → Bool
  isfile : PyStr → Bool
  read : PyStr → List Nat

/-- A `Response` value as far as the Python layer observes it: a byte body
and the ordered header sequence (lower-cased names, first entry is the
content type set at construction). -/
structure PyResponse where
  body : List Nat
  headers : List (PyStr × PyStr)
  deriving DecidableEq, Repr

/-- `Response(content, content_type=ct)`: body plus a single content-type
header entry. -/
def mkResponse (body : List Nat) (contentType : PyStr) : PyResponse :=
  ⟨body, [("content-type".toList, contentType)]⟩

/-- `send_file` from `src/oxapy/__init__.py`: missing path raises
`NotFoundError`, a non-regular file raises `ForbiddenError`, otherwise the
bytes are served under the guessed content type, with
`application/octet-stream` as the fallback.  `mimetypes.guess_type` is the
`guess` parameter. -/
def send_file (fs : FileSystem) (guess : PyStr → Option PyStr) (path : PyStr) :
    Except PyErr PyResponse :=
  if fs.pathExists path = false then .error .notFound
  else if fs.isfile path = false then .error .forbidden
  else .ok (mkResponse (fs.read path) ((guess path).getD "application/octet-stream".toList))

/-- The request handler produced by `static_file` in `src/oxapy/__init__.py`:
join the captured wildcard path onto the configured directory via
`secure_join`, then serve the file; exceptions propagate. -/
def static_file_handler (fs : FileSystem) (guess : PyStr → Option PyStr)
    (cwd directory capture : PyStr) : Except PyErr PyResponse :=
  match secure_join cwd directory capture with
  | .error e => .error e
  | .ok fp => send_file fs guess fp

/-! ### Serializer engine, modelled from the spec

The serializer engine itself is implemented natively and is not part of the
Python sources; the definitions below are modelled from the spec's §4.4
(schema generation, validation, output projection), with the concrete
document shapes pinned down by the repository's tests. -/

/-- A structural JSON value; objects are ordered key/value lists. -/
inductive JVal where
  | s (v : String)
  | n (v : Nat)
  | b (v : Bool)
  | null
  | arr (xs : List JVal)
  | obj (fields : List (String × JVal))

/-- Modelled from the spec: a Field descriptor — kind (text, email-formatted
text, or a nested serializer schema), `required` (default true), `nullable`,
`read_only`, `write_only`, `many`, and the `minLength` constraint. -/
inductive FieldSpec where
  | text (required nullable readOnly writeOnly many : Bool) (minLength : Option Nat)
  | email (required nullable readOnly writeOnly many : Bool) (minLength : Option Nat)
  | nested (fields : List (String × FieldSpec))
      (required nullable readOnly writeOnly many : Bool)

def FieldSpec.required : FieldSpec → Bool
  | .text r _ _ _ _ _ => r
  | .email r _ _ _ _ _ => r
  | .nested _ r _ _ _ _ => r

def FieldSpec.nullable : FieldSpec → Bool
  | .text _ n _ _ _ _ => n
  | .email _ n _ _ _ _ => n
  | .nested _ _ n _ _ _ => n

def FieldSpec.readOnly : FieldSpec → Bool
  | .text _ _ ro _ _ _ => ro
  | .email _ _ ro _ _ _ => ro
  | .nested _ _ _ ro _ _ => ro

def FieldSpec.writeOnly : FieldSpec → Bool
  | .text _ _ _ wo _ _ => wo
  | .email _ _ _ wo _ _ => wo
  | .nested _ _ _ _ wo _ => wo

def FieldSpec.many : FieldSpec → Bool
  | .text _ _ _ _ m _ => m
  | .email _ _ _ _ m _ => m
  | .nested _ _ _ _ _ m => m

/-- Lexicographic (code-point) comparison of character lists, as Python's
string ordering used by `sorted`. -/
def lexLeChars : List Char → List Char → Bool
  | [], _ => true
  | _ :: _, [] => false
  | a :: as, b :: bs => if a < b then true else if b < a then false else lexLeChars as bs

/-- Lexicographic string order. -/
def StrLe (a b : String) : Prop := lexLeChars a.toList b.toList = true

instance : DecidableRel StrLe := fun a b => by unfold StrLe; infer_instance

/-- The `required` list of a schema document: names of all fields not marked
optional, in lexicographically sorted order (modelled from the spec). -/
def requiredNames (fields : List (String × FieldSpec)) : List String :=
  List.insertionSort StrLe ((fields.filter (fun nf => nf.2.required)).map Prod.fst)

/-- The `"type"` entry of a property: the base name, widened to accept null
when the field is nullable (modelled from the spec). -/
def typeJ (nullable : Bool) (name : String) : JVal :=
  if nullable then .arr [.s name, .s "null"] else .s name

def minLenEntry : Option Nat → List (String × JVal)
  | some m => [("minLength", .n m)]
  | none => []

mutual
/-- Modelled from the spec: the property entries of a schema document, one
per declared field, in declaration order. -/
def schemaProps : List (String × FieldSpec) → List (String × JVal)
  | [] => []
  | (name, f) :: rest => (name, propSchema f) :: schemaProps rest

/-- Modelled from the spec: one property entry — text gives `string` (plus
`minLength`), email adds the format marker, nested embeds the sub-schema;
`many` wraps the item type in an array type, and nullability widens both the
array type and the item type. -/
def propSchema : FieldSpec → JVal
  | .text _ nb _ _ m ml =>
    let item := JVal.obj (("type", typeJ nb "string") :: minLenEntry ml)
    if m then .obj [("type", typeJ nb "array"), ("items", item)] else item
  | .email _ nb _ _ m ml =>
    let item :=
      JVal.obj (("type", typeJ nb "string") :: ("format", JVal.s "email") :: minLenEntry ml)
    if m then .obj [("type", typeJ nb "array"), ("items", item)] else item
  | .nested nf _ nb _ _ m =>
    let item := JVal.obj [("type", typeJ nb "object"),
      ("properties", .obj (schemaProps nf)),
      ("required", .arr ((requiredNames nf).map .s)),
      ("additionalProperties", .b false)]
    if m then .obj [("type", typeJ nb "array"), ("items", item)] else item
end

/-- Modelled from the spec: `schema()` over a field list — an object schema
with per-field properties in declaration order, the sorted `required` list,
and `additionalProperties: false`; `nullable` widens the object's own type. -/
def schemaObj (nullable : Bool) (fields : List (String × FieldSpec)) : JVal :=
  .obj [("type", typeJ nullable "object"),
        ("properties", .obj (schemaProps fields)),
        ("required", .arr ((requiredNames fields).map .s)),
        ("additionalProperties", .b false)]

/-- Modelled from the spec: the email format check is kept abstract at the
level the tests pin down — an address must contain an `'@'`. -/
def emailOk (s : String) : Bool := s.toList.contains '@'

mutual
/-- Modelled from the spec: validate every declared field against the input
mapping, in declaration order.  Fields marked read_only are skipped (and so
dropped from the output even when supplied); write_only fields are validated
and kept; missing required fields and failing constraints accumulate into
the error list. -/
def validateFields : List (String × FieldSpec) → List (String × JVal) →
    List (String × String) × List (String × JVal)
  | [], _ => ([], [])
  | (name, f) :: rest, input =>
    let tail := validateFields rest input
    if f.readOnly then tail
    else
      match input.lookup name with
      | none =>
        if f.required then ((name, "missing") :: tail.1, tail.2) else tail
      | some v =>
        match checkValue f v with
        | [] => (tail.1, (name, v) :: tail.2)
        | es => (es.map (fun e => (name, e)) ++ tail.1, tail.2)

/-- Modelled from the spec: a field's value is null only if nullable; a
`many` field takes an array checked elementwise. -/
def checkValue (f : FieldSpec) (v : JVal) : List String :=
  match v with
  | .null => if f.nullable then [] else ["null not allowed"]
  | _ =>
    if f.many then
      match v with
      | .arr xs => checkItems f xs
      | _ => ["expected a sequence"]
    else checkItem f v

def checkItems (f : FieldSpec) : List JVal → List String
  | [] => []
  | x :: xs => checkItem f x ++ checkItems f xs

/-- Modelled from the spec: one item — type conformance, constraint
satisfaction (minimum length, email format), recursing into nested
serializers with their own validation. -/
def checkItem (f : FieldSpec) (v : JVal) : List String :=
  match v with
  | .null => if f.nullable then [] else ["null not allowed"]
  | _ =>
    match f with
    | .text _ _ _ _ _ ml =>
      match v with
      | .s str =>
        match ml with
        | some m => if str.length < m then ["shorter than minLength"] else []
        | none => []
      | _ => ["expected a string"]
    | .email _ _ _ _ _ ml =>
      match v with
      | .s str =>
        (if emailOk str then [] else ["invalid email"]) ++
          (match ml with
           | some m => if str.length < m then ["shorter than minLength"] else []
           | none => [])
      | _ => ["expected a string"]
    | .nested nf _ _ _ _ _ =>
      match v with
      | .obj m =>
        match (validateFields nf m).1 with
        | [] => []
        | _ => ["nested validation failed"]
      | _ => ["expected an object"]
end

/-- Modelled from the spec: `is_valid` / `validated_data` — on success the
kept mapping, on failure the aggregated violations. -/
def validate (fields : List (String × FieldSpec)) (input : List (String × JVal)) :
    Except (List (String × String)) (List (String × JVal)) :=
  match validateFields fields input with
  | ([], out) => .ok out
  | (errs, _) => .error errs

/-- A bound domain instance: attribute values are either plain values or
nested instances. -/
inductive IVal where
  | v (j : JVal)
  | inst (attrs : List (String × IVal))

mutual
/-- Modelled from the spec: output projection (`data`) — every field except
those marked write_only, in declaration order; fields absent on the instance
are omitted. -/
def dataOfFields : List (String × FieldSpec) → List (String × IVal) →
    List (String × JVal)
  | [], _ => []
  | (name, f) :: rest, inst =>
    let tail := dataOfFields rest inst
    if f.writeOnly then tail
    else
      match inst.lookup name with
      | none => tail
      | some iv =>
        match dataOfField f iv with
        | none => tail
        | some j => (name, j) :: tail

/-- Modelled from the spec: one projected attribute — a plain value is
emitted as-is, a nested instance under a nested field is recursively
projected with the same rule. -/
def dataOfField : FieldSpec → IVal → Option JVal
  | _, .v j => some j
  | .nested nf _ _ _ _ _, .inst attrs => some (.obj (dataOfFields nf attrs))
  | _, .inst _ => none
end

/-- Reading an entry of a schema document (object key lookup). -/
def jGet (j : JVal) (k : String) : Option JVal :=
  match j with
  | .obj m => m.lookup k
  | _ => none

/-! ### Response header operations and route patterns, modelled from the spec -/

/-- Header names are stored lower-cased (normalized case on read). -/
def lowerName (n : PyStr) : PyStr := n.map Char.toLower

/-- Modelled from the spec: replace-first-or-insert on the ordered header
sequence. -/
def replaceFirst : List (PyStr × PyStr) → PyStr → PyStr → List (PyStr × PyStr)
  | [], n, v => [(n, v)]
  | (a, b) :: t, n, v => if a = n then (a, v) :: t else (a, b) :: replaceFirst t n v

/-- Modelled from the spec: `Response.insert_header` — replace the first
occurrence of the (lower-cased) name or insert a new entry. -/
def insert_header (r : PyResponse) (name value : PyStr) : PyResponse :=
  ⟨r.body, replaceFirst r.headers (lowerName name) value⟩

/-- Modelled from the spec: `Response.append_header` — always append a new
(name, value) entry. -/
def append_header (r : PyResponse) (name value : PyStr) : PyResponse :=
  ⟨r.body, r.headers ++ [(lowerName name, value)]⟩

/-- A route-pattern segment: literal text, a named single-segment parameter,
or a trailing wildcard capturing all remaining segments (modelled from the
spec's RoutePattern). -/
inductive Segment where
  | lit (s : PyStr)
  | param (name : PyStr)
  | wildcard (name : PyStr)
  deriving DecidableEq, Repr

def Segment.isWildcard : Segment → Bool
  | .wildcard _ => true
  | _ => false

/-- The request path's segments: split on `'/'`, dropping the empty piece
before a leading slash. -/
def pathSegs (p : PyStr) : List PyStr :=
  match splitSep p with
  | [] :: rest => rest
  | r => r

/-- Modelled from the spec: positional pattern matching — literals need
exact equality, a param binds one segment, and a trailing wildcard consumes
all remaining segments (one or more), captured as a single joined string. -/
def matchPattern : List Segment → List PyStr → Option (List (PyStr × PyStr))
  | [], [] => some []
  | [], _ :: _ => none
  | [.wildcard n], x :: xs => some [(n, joinSep (x :: xs))]
  | .lit s :: ps, x :: xs => if s = x then matchPattern ps xs else none
  | .param n :: ps, x :: xs => (matchPattern ps xs).map (fun caps => (n, x) :: caps)
  | _ :: _, [] => none
  | .wildcard _ :: _ :: _, _ :: _ => none

/-- Modelled from the spec: resolving one registered pattern against a
request path. -/
def resolvePattern (pattern : List Segment) (path : PyStr) :
    Option (List (PyStr × PyStr)) :=
  matchPattern pattern (pathSegs path)

end Oxapy

namespace FixStubs

/-!
Model of `fix_new_signatures` from `src/src/bin/fix_stubs.py`.

The regex
  `(def __new__\([^)]+\)\s*->\s*)tuple\[([A-Za-z_][A-Za-z0-9_]*),\s*[^\]]+\](\s*:\s*\.\.\.)`
is deterministic on this pattern (every quantified piece is delimited by a
character its class excludes), so matching at a position is implemented as a
character-stepping machine; `re.sub` scans left to right and replaces each
non-overlapping match by group1 ++ group2 ++ group3.  `\s` is modelled at
ASCII level.
-/

def newLit : List Char := "def __new__(".toList

def arrowLit : List Char := "->".toList

def tupleLit : List Char := "tuple[".toList

def dotsLit : List Char := "...".toList

/-- Python `\s` (ASCII range). -/
def isWsB (c : Char) : Bool :=
  c == ' ' || c == '\t' || c == '\n' || c == '\r' || c == '\x0B' || c == '\x0C'

/-- `[A-Za-z_]`. -/
def isIdentStart (c : Char) : Bool :=
  decide ('A' ≤ c ∧ c ≤ 'Z') || decide ('a' ≤ c ∧ c ≤ 'z') || c == '_'

/-- `[A-Za-z0-9_]`. -/
def isIdentCont (c : Char) : Bool :=
  isIdentStart c || decide ('0' ≤ c ∧ c ≤ '9')

/-- The captured pieces of one match (`M` is the discarded tail inside the
`tuple[...]`). -/
structure RegexGroups where
  P : List Char
  W1 : List Char
  W2 : List Char
  N : List Char
  M : List Char
  W3 : List Char
  W4 : List Char

/-- Matcher states; payloads accumulate the consumed pieces. -/
inductive MSt where
  | lit (k : Nat)
  | args (P : List Char)
  | w1 (P W1 : List Char)
  | gt (P W1 : List Char)
  | w2 (P W1 W2 : List Char)
  | tup (P W1 W2 : List Char) (k : Nat)
  | ist (P W1 W2 : List Char)
  | idn (P W1 W2 N : List Char)
  | mid (P W1 W2 N M : List Char)
  | w3 (P W1 W2 N M W3 : List Char)
  | w4 (P W1 W2 N M W3 W4 : List Char)
  | dots (P W1 W2 N M W3 W4 : List Char) (k : Nat)

inductive StepRes where
  | next (st : MSt)
  | reject
  | accept (g : RegexGroups)

/-- One matcher step. -/
def step : MSt → Char → StepRes
  | .lit k, ch =>
    if newLit.get? k = some ch then
      if k + 1 = newLit.length then .next (.args []) else .next (.lit (k + 1))
    else .reject
  | .args P, ch =>
    if ch = ')' then (if P = [] then .reject else .next (.w1 P []))
    else .next (.args (P ++ [ch]))
  | .w1 P W1, ch =>
    if isWsB ch then .next (.w1 P (W1 ++ [ch]))
    else if ch = '-' then .next (.gt P W1) else .reject
  | .gt P W1, ch => if ch = '>' then .next (.w2 P W1 []) else .reject
  | .w2 P W1 W2, ch =>
    if isWsB ch then .next (.w2 P W1 (W2 ++ [ch]))
    else if ch = 't' then .next (.tup P W1 W2 1) else .reject
  | .tup P W1 W2 k, ch =>
    if tupleLit.get? k = some ch then
      if k + 1 = tupleLit.length then .next (.ist P W1 W2)
      else .next (.tup P W1 W2 (k + 1))
    else .reject
  | .ist P W1 W2, ch => if isIdentStart ch then .next (.idn P W1 W2 [ch]) else .reject
  | .idn P W1 W2 N, ch =>
    if isIdentCont ch then .next (.idn P W1 W2 (N ++ [ch]))
    else if ch = ',' then .next (.mid P W1 W2 N []) else .reject
  | .mid P W1 W2 N M, ch =>
    if ch = ']' then (if M = [] then .reject else .next (.w3 P W1 W2 N M []))
    else .next (.mid P W1 W2 N (M ++ [ch]))
  | .w3 P W1 W2 N M W3, ch =>
    if isWsB ch then .next (.w3 P W1 W2 N M (W3 ++ [ch]))
    else if ch = ':' then .next (.w4 P W1 W2 N M W3 []) else .reject
  | .w4 P W1 W2 N M W3 W4, ch =>
    if isWsB ch then .next (.w4 P W1 W2 N M W3 (W4 ++ [ch]))
    else if ch = '.' then .next (.dots P W1 W2 N M W3 W4 1) else .reject
  | .dots P W1 W2 N M W3 W4 k, ch =>
    if ch = '.' then
      if k + 1 = 3 then .accept ⟨P, W1, W2, N, M, W3, W4⟩
      else .next (.dots P W1 W2 N M W3 W4 (k + 1))
    else .reject

/-- Run the matcher to acceptance; `none` if it rejects or input ends. -/
def runM (st : MSt) : List Char → Option (RegexGroups × List Char)
  | [] => none
  | ch :: rest =>
    match step st ch with
    | .reject => none
    | .accept g => some (g, rest)
    | .next st' => runM st' rest

/-- The replacement `group1 ++ group2 ++ group3` of `fix_new_signatures`. -/
def replOf (g : RegexGroups) : List Char :=
  newLit ++ g.P ++ [')'] ++ g.W1 ++ arrowLit ++ g.W2 ++ g.N ++ g.W3 ++ [':'] ++ g.W4 ++ dotsLit

/-- Try to match the pattern at the start of `s`; on success return the
replacement text and the remaining input. -/
def tryMatch (s : List Char) : Option (List Char × List Char) :=
  (runM (.lit 0) s).map (fun p => (replOf p.1, p.2))

/-- Any successful run consumes at least one character: the remaining input is
strictly shorter.  Needed to define the left-to-right scan below. -/
def runM_rest_lt : ∀ {s : List Char} {st : MSt} {g : RegexGroups} {rest : List Char},
    runM st s = some (g, rest) → rest.length < s.length := by
  intro s
  induction s with
  | nil => intro st g rest h; simp [runM] at h
  | cons ch r ih =>
    intro st g rest h
    rw [runM] at h
    cases hs : step st ch with
    | reject => rw [hs] at h; simp at h
    | accept g2 =>
      rw [hs] at h
      injection h with h2
      injection h2 with h3 hr
      subst hr
      simp
    | next st2 =>
      rw [hs] at h
      have := ih h
      simp
      omega

/-- The bound transferred to `tryMatch`. -/
def tryMatch_rest_lt : ∀ {s r rest : List Char},
    tryMatch s = some (r, rest) → rest.length < s.length := by
  intro s r rest h
  unfold tryMatch at h
  cases hr : runM (.lit 0) s with
  | none => rw [hr] at h; simp at h
  | some p =>
    rw [hr] at h
    obtain ⟨g, rest2⟩ := p
    injection h with h2
    injection h2 with h3 hr2
    subst hr2
    exact runM_rest_lt hr

/-- One fuel step of the left-to-right scan of `re.sub`: replace the match at
the current position if there is one, else keep the character and move on. -/
def fixF : Nat → List Char → List Char
  | 0, _ => []
  | _ + 1, [] => []
  | fuel + 1, c :: cs =>
    match tryMatch (c :: cs) with
    | some (r, rest) => r ++ fixF fuel rest
    | none => c :: fixF fuel cs

/-- `fix_new_signatures`, scanning left to right and replacing each
non-overlapping match (the semantics of `re.sub` for this pattern); the fuel
`s.length + 1` always suffices because every replacement consumes input. -/
def fix_new_signatures (s : List Char) : List Char :=
  fixF (s.length + 1) s

/-- Partial run: consume a block of input, reporting the machine's fate. -/
inductive RunRes where
  | going (st : MSt)
  | accepted (g : RegexGroups) (rest : List Char)
  | rejected

def runPart (st : MSt) : List Char → RunRes
  | [] => .going st
  | ch :: r =>
    match step st ch with
    | .reject => .rejected
    | .accept g => .accepted g r
    | .next st' => runPart st' r

/-- The input consumed to reach a state. -/
def consSt : MSt → List Char
  | .lit k => newLit.take k
  | .args P => newLit ++ P
  | .w1 P W1 => newLit ++ P ++ [')'] ++ W1
  | .gt P W1 => newLit ++ P ++ [')'] ++ W1 ++ ['-']
  | .w2 P W1 W2 => newLit ++ P ++ [')'] ++ W1 ++ arrowLit ++ W2
  | .tup P W1 W2 k => newLit ++ P ++ [')'] ++ W1 ++ arrowLit ++ W2 ++ tupleLit.take k
  | .ist P W1 W2 => newLit ++ P ++ [')'] ++ W1 ++ arrowLit ++ W2 ++ tupleLit
  | .idn P W1 W2 N => newLit ++ P ++ [')'] ++ W1 ++ arrowLit ++ W2 ++ tupleLit ++ N
  | .mid P W1 W2 N M => newLit ++ P ++ [')'] ++ W1 ++ arrowLit ++ W2 ++ tupleLit ++ N ++ [','] ++ M
  | .w3 P W1 W2 N M W3 =>
    newLit ++ P ++ [')'] ++ W1 ++ arrowLit ++ W2 ++ tupleLit ++ N ++ [','] ++ M ++ [']'] ++ W3
  | .w4 P W1 W2 N M W3 W4 =>
    newLit ++ P ++ [')'] ++ W1 ++ arrowLit ++ W2 ++ tupleLit ++ N ++ [','] ++ M ++ [']'] ++ W3
      ++ [':'] ++ W4
  | .dots P W1 W2 N M W3 W4 k =>
    newLit ++ P ++ [')'] ++ W1 ++ arrowLit ++ W2 ++ tupleLit ++ N ++ [','] ++ M ++ [']'] ++ W3
      ++ [':'] ++ W4 ++ dotsLit.take k

/-- The full text of a match with groups `g`. -/
def consFull (g : RegexGroups) : List Char :=
  newLit ++ g.P ++ [')'] ++ g.W1 ++ arrowLit ++ g.W2 ++ tupleLit ++ g.N ++ [','] ++ g.M
    ++ [']'] ++ g.W3 ++ [':'] ++ g.W4 ++ dotsLit

def AllWs (l : List Char) : Prop := ∀ c ∈ l, isWsB c = true

def AllIC (l : List Char) : Prop := ∀ c ∈ l, isIdentCont c = true

/-- Payload invariants maintained along a run. -/
def StInv : MSt → Prop
  | .lit _ => True
  | .args P => ')' ∉ P
  | .w1 P W1 => ')' ∉ P ∧ P ≠ [] ∧ AllWs W1
  | .gt P W1 => ')' ∉ P ∧ P ≠ [] ∧ AllWs W1
  | .w2 P W1 W2 => ')' ∉ P ∧ P ≠ [] ∧ AllWs W1 ∧ AllWs W2
  | .tup P W1 W2 k => (')' ∉ P ∧ P ≠ [] ∧ AllWs W1 ∧ AllWs W2) ∧ 1 ≤ k
  | .ist P W1 W2 => ')' ∉ P ∧ P ≠ [] ∧ AllWs W1 ∧ AllWs W2
  | .idn P W1 W2 N => (')' ∉ P ∧ P ≠ [] ∧ AllWs W1 ∧ AllWs W2) ∧ N ≠ [] ∧ AllIC N
  | .mid P W1 W2 N M => ((')' ∉ P ∧ P ≠ [] ∧ AllWs W1 ∧ AllWs W2) ∧ N ≠ [] ∧ AllIC N) ∧ ']' ∉ M
  | .w3 P W1 W2 N M W3 =>
    (((')' ∉ P ∧ P ≠ [] ∧ AllWs W1 ∧ AllWs W2) ∧ N ≠ [] ∧ AllIC N) ∧ ']' ∉ M ∧ M ≠ []) ∧ AllWs W3
  | .w4 P W1 W2 N M W3 W4 =>
    ((((')' ∉ P ∧ P ≠ [] ∧ AllWs W1 ∧ AllWs W2) ∧ N ≠ [] ∧ AllIC N) ∧ ']' ∉ M ∧ M ≠ [])
      ∧ AllWs W3) ∧ AllWs W4
  | .dots P W1 W2 N M W3 W4 k =>
    (((((')' ∉ P ∧ P ≠ [] ∧ AllWs W1 ∧ AllWs W2) ∧ N ≠ [] ∧ AllIC N) ∧ ']' ∉ M ∧ M ≠ [])
      ∧ AllWs W3) ∧ AllWs W4) ∧ 1 ≤ k ∧ k ≤ 2

/-- Group invariants of an accepted match. -/
def GroupsInv (g : RegexGroups) : Prop :=
  ')' ∉ g.P ∧ g.P ≠ [] ∧ AllWs g.W1 ∧ AllWs g.W2 ∧ g.N ≠ [] ∧ AllIC g.N ∧
    ']' ∉ g.M ∧ g.M ≠ [] ∧ AllWs g.W3 ∧ AllWs g.W4

/-- Every start position strictly inside `u` (with continuation `T`) fails to match. -/
def DeadAll (u T : List Char) : Prop :=
  ∀ i, i < u.length → runM (.lit 0) (u.drop i ++ T) = none

/-- States of the suffix phase of the pattern (after the closing bracket). -/
def isW3St : MSt → Prop
  | .w3 _ _ _ _ _ _ => True
  | .w4 _ _ _ _ _ _ _ => True
  | .dots _ _ _ _ _ _ _ _ => True
  | _ => False

end FixStubs

namespace Oxapy

/-! ### Structural lemmas about the path model -/

theorem splitSep_ne_nil (l : PyStr) : splitSep l ≠ [] := by
  induction l with
  | nil => simp [splitSep]
  | cons c cs ih =>
    simp only [splitSep, List.foldr_cons] at *
    by_cases hc : c = '/'
    · simp [hc]
    · simp only [if_neg hc]
      cases h : cs.foldr _ [[]] <;> simp

theorem splitSep_cons_slash (l : PyStr) : splitSep ('/' :: l) = [] :: splitSep l := by
  simp [splitSep]

theorem splitSep_cons_ne {c : Char} (hc : c ≠ '/') (l : PyStr) :
    ∃ a rest, splitSep l = a :: rest ∧ splitSep (c :: l) = (c :: a) :: rest := by
  cases h : splitSep l with
  | nil => exact absurd h (splitSep_ne_nil l)
  | cons a rest =>
    refine ⟨a, rest, rfl, ?_⟩
    simp only [splitSep, List.foldr_cons] at *
    rw [h, if_neg hc]

theorem splitSep_append_slash (a b : PyStr) :
    splitSep (a ++ '/' :: b) = splitSep a ++ splitSep b := by
  induction a with
  | nil => simp [splitSep_cons_slash, splitSep]
  | cons c cs ih =>
    by_cases hc : c = '/'
    · subst hc
      rw [List.cons_append, splitSep_cons_slash, splitSep_cons_slash, ih, List.cons_append]
    · obtain ⟨a1, r1, h1, h2⟩ := splitSep_cons_ne hc (cs ++ '/' :: b)
      obtain ⟨a2, r2, h3, h4⟩ := splitSep_cons_ne hc cs
      rw [List.cons_append, h2, h4, List.cons_append]
      rw [ih, h3] at h1
      injection h1 with e1 e2
      rw [e1, ← e2]
      rfl

theorem joinSep_cons_cons (x y : PyStr) (t : List PyStr) :
    joinSep (x :: y :: t) = x ++ '/' :: joinSep (y :: t) := rfl

theorem splitSep_noSlash {l : PyStr} (h : '/' ∉ l) : splitSep l = [l] := by
  induction l with
  | nil => simp [splitSep]
  | cons c cs ih =>
    have hc : c ≠ '/' := fun e => h (e ▸ List.mem_cons_self c cs)
    obtain ⟨a, rest, h1, h2⟩ := splitSep_cons_ne hc cs
    have := ih (fun hm => h (List.mem_cons_of_mem c hm))
    rw [this] at h1
    injection h1 with e1 e2
    rw [h2, e1, e2]

theorem noSlash_of_mem_splitSep {l x : PyStr} (hx : x ∈ splitSep l) : '/' ∉ x := by
  induction l generalizing x with
  | nil => simp [splitSep] at hx; simp [hx]
  | cons c cs ih =>
    by_cases hc : c = '/'
    · subst hc
      rw [splitSep_cons_slash, List.mem_cons] at hx
      rcases hx with rfl | hx
      · simp
      · exact ih hx
    · obtain ⟨a, rest, h1, h2⟩ := splitSep_cons_ne hc cs
      rw [h2, List.mem_cons] at hx
      rcases hx with rfl | hx
      · intro hm
        rw [List.mem_cons] at hm
        rcases hm with hm | hm
        · exact hc hm.symm
        · exact ih (h1 ▸ List.mem_cons_self a rest) hm
      · exact ih (h1 ▸ List.mem_cons_of_mem a hx)

theorem splitSep_joinSep {xs : List PyStr} (h : ∀ x ∈ xs, '/' ∉ x) (hne : xs ≠ []) :
    splitSep (joinSep xs) = xs := by
  induction xs with
  | nil => exact absurd rfl hne
  | cons x rest ih =>
    cases rest with
    | nil => exact splitSep_noSlash (h x (List.mem_cons_self x []))
    | cons y t =>
      rw [joinSep_cons_cons, splitSep_append_slash,
        splitSep_noSlash (h x (List.mem_cons_self x _)),
        ih (fun z hz => h z (List.mem_cons_of_mem x hz)) (List.cons_ne_nil y t)]
      rfl

theorem joinSep_append {xs ys : List PyStr} (hx : xs ≠ []) (hy : ys ≠ []) :
    joinSep (xs ++ ys) = joinSep xs ++ '/' :: joinSep ys := by
  induction xs with
  | nil => exact absurd rfl hx
  | cons x rest ih =>
    cases rest with
    | nil =>
      cases ys with
      | nil => exact absurd rfl hy
      | cons y t => simp [joinSep]
    | cons x2 t2 =>
      have : (x :: x2 :: t2) ++ ys = x :: x2 :: (t2 ++ ys) := rfl
      rw [this, joinSep_cons_cons, joinSep_cons_cons]
      have h2 : x2 :: (t2 ++ ys) = (x2 :: t2) ++ ys := rfl
      rw [h2, ih (List.cons_ne_nil x2 t2), List.append_assoc]
      rfl

theorem splitSep_replicate_slash (k : Nat) (l : PyStr) :
    splitSep (List.replicate k '/' ++ l) = List.replicate k [] ++ splitSep l := by
  induction k with
  | zero => simp
  | succ n ih => simp [List.replicate_succ, splitSep_cons_slash, ih]

theorem normStep_good {k : Nat} {acc : List PyStr} {comp : PyStr}
    (hacc : ∀ x ∈ acc, GoodComp k x) (hcomp : '/' ∉ comp) :
    ∀ x ∈ normStep k acc comp, GoodComp k x := by
  intro x hx
  unfold normStep at hx
  by_cases h1 : comp = [] ∨ comp = ['.']
  · rw [if_pos h1] at hx; exact hacc x hx
  · rw [if_neg h1] at hx
    push_neg at h1
    by_cases h2 : comp ≠ ['.', '.'] ∨ (k = 0 ∧ acc = []) ∨ acc.getLast? = some ['.', '.']
    · rw [if_pos h2] at hx
      rcases List.mem_append.1 hx with hx | hx
      · exact hacc x hx
      · have hxc : x = comp := by simpa using hx
        subst hxc
        refine ⟨h1.1, hcomp, h1.2, ?_⟩
        intro hk
        rcases h2 with h2 | h2 | h2
        · exact h2
        · exact absurd h2.1 hk
        · exfalso
          have hmem : (['.', '.'] : PyStr) ∈ acc := by
            obtain ⟨hne', heq⟩ :=
              List.mem_getLast?_eq_getLast
                (show (['.', '.'] : PyStr) ∈ acc.getLast? from by rw [h2]; rfl)
            exact heq ▸ List.getLast_mem hne'
          exact (hacc _ hmem).2.2.2 hk rfl
    · rw [if_neg h2] at hx
      exact hacc x (List.dropLast_sublist acc |>.mem hx)

theorem foldl_normStep_good {k : Nat} {comps : List PyStr}
    (hcomps : ∀ x ∈ comps, '/' ∉ x) :
    ∀ acc, (∀ x ∈ acc, GoodComp k x) →
      ∀ x ∈ comps.foldl (normStep k) acc, GoodComp k x := by
  induction comps with
  | nil => intro acc hacc x hx; exact hacc x hx
  | cons c cs ih =>
    intro acc hacc x hx
    rw [List.foldl_cons] at hx
    exact ih (fun y hy => hcomps y (List.mem_cons_of_mem c hy)) _
      (normStep_good hacc (hcomps c (List.mem_cons_self c cs))) x hx

theorem normComps_good (p : PyStr) : ∀ x ∈ normComps p, GoodComp (initialSlashes p) x :=
  foldl_normStep_good (fun _ hx => noSlash_of_mem_splitSep hx) [] (by simp)

theorem isabs_ne_nil {p : PyStr} (h : isabs p = true) : p ≠ [] := by
  intro he; rw [he] at h; simp [isabs] at h

theorem initialSlashes_pos {p : PyStr} (h : isabs p = true) : 1 ≤ initialSlashes p := by
  unfold isabs at h
  unfold initialSlashes
  rw [if_pos (by simpa using h)]
  split <;> omega

theorem normpath_eq_of_isabs {p : PyStr} (h : isabs p = true) :
    normpath p = List.replicate (initialSlashes p) '/' ++ joinSep (normComps p) := by
  unfold normpath
  rw [if_neg (isabs_ne_nil h)]
  have hk := initialSlashes_pos h
  simp only [normComps]
  rw [if_neg ?_]
  intro he
  have : (List.replicate (initialSlashes p) '/' : PyStr) = [] :=
    (List.append_eq_nil.1 he).1
  rw [List.replicate_eq_nil_iff] at this
  omega

theorem segs_append_slash (a b : PyStr) : segs (a ++ '/' :: b) = segs a ++ segs b := by
  unfold segs
  rw [splitSep_append_slash, List.filter_append]

theorem segs_render {k : Nat} {cs : List PyStr}
    (h : ∀ x ∈ cs, x ≠ [] ∧ '/' ∉ x) :
    segs (List.replicate k '/' ++ joinSep cs) = cs := by
  unfold segs
  rw [splitSep_replicate_slash, List.filter_append]
  have h1 : (List.replicate k ([] : PyStr)).filter (· ≠ []) = [] := by
    simp [List.filter_eq_nil_iff]
  rw [h1, List.nil_append]
  cases hcs : cs with
  | nil => simp [joinSep, splitSep]
  | cons c t =>
    rw [← hcs, splitSep_joinSep (fun x hx => (h x hx).2) (by rw [hcs]; simp)]
    rw [List.filter_eq_self]
    intro x hx
    simpa using (h x hx).1

theorem leadSlashes_nil : leadSlashes [] = 0 := rfl

theorem leadSlashes_cons_slash (l : PyStr) : leadSlashes ('/' :: l) = leadSlashes l + 1 := rfl

theorem leadSlashes_cons_ne {c : Char} (hc : c ≠ '/') (l : PyStr) :
    leadSlashes (c :: l) = 0 := by
  unfold leadSlashes
  split
  · rename_i h; injection h with h1 h2; exact absurd h1 hc
  · rfl

theorem leadSlashes_replicate_append (k : Nat) (l : PyStr) :
    leadSlashes (List.replicate k '/' ++ l) = k + leadSlashes l := by
  induction k with
  | zero => simp
  | succ n ih =>
    rw [List.replicate_succ, List.cons_append, leadSlashes_cons_slash, ih]
    omega

theorem leadSlashes_render (k : Nat) {cs : List PyStr}
    (h : ∀ x ∈ cs, x ≠ [] ∧ '/' ∉ x) (v : PyStr) (hv : cs = [] → v = []) :
    leadSlashes (List.replicate k '/' ++ joinSep cs ++ v) = k := by
  cases cs with
  | nil =>
    rw [hv rfl]
    show leadSlashes (List.replicate k '/' ++ joinSep [] ++ []) = k
    rw [List.append_nil]
    have : joinSep [] = ([] : PyStr) := rfl
    rw [this, List.append_nil]
    have h2 := leadSlashes_replicate_append k []
    rw [List.append_nil] at h2
    rw [h2, leadSlashes_nil]
    omega
  | cons c t =>
    have hgood := h c (List.mem_cons_self c t)
    obtain ⟨ch, crest, hc⟩ : ∃ ch crest, c = ch :: crest := by
      cases hc2 : c with
      | nil => exact absurd (hc2 ▸ hgood.1) (by simp)
      | cons ch crest => exact ⟨ch, crest, rfl⟩
    subst hc
    have hch : ch ≠ '/' := by
      intro he
      exact hgood.2 (he ▸ List.mem_cons_self _ _)
    have hjoin : ∃ w, joinSep ((ch :: crest) :: t) ++ v = ch :: w := by
      cases t with
      | nil => exact ⟨crest ++ v, by simp [joinSep]⟩
      | cons y t2 => exact ⟨crest ++ '/' :: joinSep (y :: t2) ++ v, by simp [joinSep_cons_cons]⟩
    obtain ⟨w, hw⟩ := hjoin
    rw [List.append_assoc, hw, leadSlashes_replicate_append, leadSlashes_cons_ne hch]
    omega

theorem isabs_render {k : Nat} (hk : 1 ≤ k) (l : PyStr) :
    isabs (List.replicate k '/' ++ l) = true := by
  cases k with
  | zero => omega
  | succ n => simp [isabs, List.replicate_succ]

theorem joinSep_ne_nil {cs : List PyStr} (h : ∀ x ∈ cs, x ≠ [] ∧ '/' ∉ x)
    (hne : cs ≠ []) : joinSep cs ≠ [] := by
  cases cs with
  | nil => exact absurd rfl hne
  | cons x t =>
    cases t with
    | nil => exact (h x (List.mem_cons_self x [])).1
    | cons y t2 =>
      rw [joinSep_cons_cons]
      intro he
      exact (h x (List.mem_cons_self x _)).1 (List.append_eq_nil.1 he).1

theorem joinSep_getLast_ne_slash {cs : List PyStr}
    (h : ∀ x ∈ cs, x ≠ [] ∧ '/' ∉ x) (hne : cs ≠ []) :
    (joinSep cs).getLast? ≠ some '/' := by
  induction cs with
  | nil => exact absurd rfl hne
  | cons x t ih =>
    cases t with
    | nil =>
      show x.getLast? ≠ some '/'
      intro he
      obtain ⟨hx, heq⟩ :=
        List.mem_getLast?_eq_getLast (show '/' ∈ x.getLast? from by rw [he]; rfl)
      exact (h x (List.mem_cons_self x [])).2 (heq ▸ List.getLast_mem hx)
    | cons y t2 =>
      rw [joinSep_cons_cons]
      have hj : joinSep (y :: t2) ≠ [] :=
        joinSep_ne_nil (fun z hz => h z (List.mem_cons_of_mem x hz)) (by simp)
      rw [List.getLast?_append_of_ne_nil x (by simp)]
      have : ('/' :: joinSep (y :: t2) : PyStr) = ['/'] ++ joinSep (y :: t2) := rfl
      rw [this, List.getLast?_append_of_ne_nil _ hj]
      exact ih (fun z hz => h z (List.mem_cons_of_mem x hz)) (by simp)

theorem allSlash_of_segs_eq_nil {r : PyStr} (h : segs r = []) : ∀ c ∈ r, c = '/' := by
  induction r with
  | nil => simp
  | cons c cs ih =>
    by_cases hc : c = '/'
    · subst hc
      have : segs ('/' :: cs) = segs cs := by
        unfold segs; rw [splitSep_cons_slash]; simp
      intro d hd
      rw [List.mem_cons] at hd
      rcases hd with rfl | hd
      · rfl
      · exact ih (this ▸ h) d hd
    · exfalso
      obtain ⟨a, rest, h1, h2⟩ := splitSep_cons_ne hc cs
      unfold segs at h
      rw [h2] at h
      simp at h

theorem slashCheck_iff_strictlyInside {q1 q2 : PyStr}
    (h1 : isabs q1 = true) (h2 : isabs q2 = true)
    (hroot : segs (normpath q1) ≠ []) :
    (normpath q1 ++ ['/'] <+: normpath q2) ↔ strictlyInside (normpath q1) (normpath q2) := by
  have hb : normpath q1 = List.replicate (initialSlashes q1) '/' ++ joinSep (normComps q1) :=
    normpath_eq_of_isabs h1
  have ht : normpath q2 = List.replicate (initialSlashes q2) '/' ++ joinSep (normComps q2) :=
    normpath_eq_of_isabs h2
  have hg1 : ∀ x ∈ normComps q1, x ≠ [] ∧ '/' ∉ x := fun x hx =>
    ⟨(normComps_good q1 x hx).1, (normComps_good q1 x hx).2.1⟩
  have hg2 : ∀ x ∈ normComps q2, x ≠ [] ∧ '/' ∉ x := fun x hx =>
    ⟨(normComps_good q2 x hx).1, (normComps_good q2 x hx).2.1⟩
  have hsb : segs (normpath q1) = normComps q1 := by rw [hb]; exact segs_render hg1
  have hst : segs (normpath q2) = normComps q2 := by rw [ht]; exact segs_render hg2
  have hc1ne : normComps q1 ≠ [] := by rw [hsb] at hroot; exact hroot
  have hlb : leadSlashes (normpath q1) = initialSlashes q1 := by
    have h := leadSlashes_render (initialSlashes q1) hg1 ([] : PyStr) (fun _ => rfl)
    rw [List.append_nil] at h
    rw [hb]; exact h
  have hk1pos : 1 ≤ initialSlashes q1 := initialSlashes_pos h1
  have hk2pos : 1 ≤ initialSlashes q2 := initialSlashes_pos h2
  have hiab : isabs (normpath q1) = true := by rw [hb]; exact isabs_render hk1pos _
  have hiat : isabs (normpath q2) = true := by rw [ht]; exact isabs_render hk2pos _
  constructor
  · intro hp
    obtain ⟨r, hr⟩ := hp
    have hr' : normpath q2 = normpath q1 ++ '/' :: r := by
      rw [← hr, List.append_assoc]; rfl
    have hsegs_t : segs (normpath q2) = segs (normpath q1) ++ segs r := by
      rw [hr', segs_append_slash]
    have hlt : leadSlashes (normpath q2) = initialSlashes q1 := by
      rw [hr', hb]
      exact leadSlashes_render (initialSlashes q1) hg1 ('/' :: r) (fun hc => absurd hc hc1ne)
    have hc2ne : normComps q2 ≠ [] := by
      intro he
      rw [he] at hst
      rw [hst] at hsegs_t
      exact hroot (List.append_eq_nil.1 hsegs_t.symm).1
    have hlast : (normpath q2).getLast? ≠ some '/' := by
      rw [ht]
      rw [List.getLast?_append_of_ne_nil _ (joinSep_ne_nil hg2 hc2ne)]
      exact joinSep_getLast_ne_slash hg2 hc2ne
    have hrne : r ≠ [] := by
      intro he
      apply hlast
      rw [hr', he]
      rw [List.getLast?_append_of_ne_nil (normpath q1) (by simp)]
      rfl
    have hsegsr : segs r ≠ [] := by
      intro he
      apply hlast
      have hall := allSlash_of_segs_eq_nil he
      rw [hr']
      rw [List.getLast?_append_of_ne_nil (normpath q1) (by simp)]
      have hcr : ('/' :: r : PyStr) = ['/'] ++ r := rfl
      rw [hcr, List.getLast?_append_of_ne_nil _ hrne]
      rw [List.getLast?_eq_getLast_of_ne_nil hrne]
      exact congrArg some (hall _ (List.getLast_mem hrne))
    refine ⟨hiab, hiat, ?_, ?_, ?_, ?_, ?_⟩
    · rw [hlt, hlb]
    · rw [hsegs_t]; exact List.prefix_append _ _
    · rw [hsegs_t]
      intro he
      have hlen := congrArg List.length he
      rw [List.length_append] at hlen
      have : (segs r).length = 0 := by omega
      exact hsegsr (List.length_eq_zero.1 this)
    · rw [hst]; intro hm; exact (normComps_good q2 _ hm).2.2.2 (by omega) rfl
    · rw [hst]; intro hm; exact (normComps_good q2 _ hm).2.2.1 rfl
  · rintro ⟨_, _, hlead, hpre2, hne, _, _⟩
    have hlt : leadSlashes (normpath q2) = initialSlashes q2 := by
      have h := leadSlashes_render (initialSlashes q2) hg2 ([] : PyStr) (fun _ => rfl)
      rw [List.append_nil] at h
      rw [ht]; exact h
    have hk : initialSlashes q2 = initialSlashes q1 := by
      rw [hlt] at hlead; rw [hlb] at hlead; exact hlead
    obtain ⟨rest, hrest⟩ := hpre2
    have hrestne : rest ≠ [] := by
      intro he; rw [he, List.append_nil] at hrest; exact hne hrest
    have hcomps : normComps q2 = normComps q1 ++ rest := by
      rw [← hst, ← hrest, hsb]
    have hfin : normpath q2 = (normpath q1 ++ ['/']) ++ joinSep rest := by
      rw [ht, hk, hcomps, joinSep_append hc1ne hrestne, hb]
      simp [List.append_assoc]
    exact ⟨joinSep rest, hfin.symm⟩

theorem isabs_osJoin {a : PyStr} (ha : isabs a = true) (b : PyStr) :
    isabs (osJoin a b) = true := by
  unfold osJoin
  by_cases hb : b.take 1 = ['/']
  · rw [if_pos hb]; unfold isabs; simp [hb]
  · rw [if_neg hb]
    obtain ⟨t, hat⟩ : ∃ t, a = '/' :: t := by
      cases ha2 : a with
      | nil => rw [ha2] at ha; simp [isabs] at ha
      | cons c t =>
        rw [ha2] at ha
        simp [isabs] at ha
        exact ⟨t, by rw [ha]⟩
    split
    · rw [hat]; rfl
    · rw [hat]; rfl

theorem isabs_normpath {p : PyStr} (h : isabs p = true) : isabs (normpath p) = true := by
  rw [normpath_eq_of_isabs h]
  exact isabs_render (initialSlashes_pos h) _

theorem abspath_eq_normpath (cwd base : PyStr) :
    abspath cwd base = normpath (if isabs base = true then base else osJoin cwd base) := by
  by_cases h : isabs base = true <;> simp [abspath, h]

/-- C1 (amended): provided the configured base does not resolve to a
filesystem root (its absolute path has at least one segment), `secure_join`
returns the normalized join exactly when that join lands strictly inside the
base directory, raises `ForbiddenError` exactly when it does not, and the
`static_file` handler consequently only ever serves a file whose resolved
path lies strictly inside the directory. -/
theorem secure_join_amended (cwd base user : PyStr)
    (hcwd : isabs cwd = true)
    (hroot : segs (abspath cwd base) ≠ []) :
    (secure_join cwd base user
        = .ok (normpath (osJoin (abspath cwd base) user))
      ↔ strictlyInside (abspath cwd base) (normpath (osJoin (abspath cwd base) user))) ∧
    (secure_join cwd base user = .error .forbidden
      ↔ ¬ strictlyInside (abspath cwd base) (normpath (osJoin (abspath cwd base) user))) ∧
    (∀ fs guess r, static_file_handler fs guess cwd base user = .ok r →
      ∃ p, strictlyInside (abspath cwd base) p ∧ send_file fs guess p = .ok r) := by
  have habs := abspath_eq_normpath cwd base
  have hq1 : isabs (if isabs base = true then base else osJoin cwd base) = true := by
    by_cases h : isabs base = true
    · rw [if_pos h]; exact h
    · rw [if_neg h]; exact isabs_osJoin hcwd base
  have hb_abs : isabs (abspath cwd base) = true := by
    rw [habs]; exact isabs_normpath hq1
  have hq2 : isabs (osJoin (abspath cwd base) user) = true := isabs_osJoin hb_abs user
  have hiff : ((abspath cwd base ++ ['/']) <+: normpath (osJoin (abspath cwd base) user))
      ↔ strictlyInside (abspath cwd base) (normpath (osJoin (abspath cwd base) user)) := by
    rw [habs] at hq2 hroot ⊢
    exact slashCheck_iff_strictlyInside hq1 hq2 hroot
  have hmain :
      (secure_join cwd base user
          = .ok (normpath (osJoin (abspath cwd base) user))
        ↔ strictlyInside (abspath cwd base) (normpath (osJoin (abspath cwd base) user))) ∧
      (secure_join cwd base user = .error .forbidden
        ↔ ¬ strictlyInside (abspath cwd base) (normpath (osJoin (abspath cwd base) user))) := by
    by_cases hchk : (abspath cwd base ++ ['/']).isPrefixOf
        (normpath (osJoin (abspath cwd base) user)) = true
    · have hin := hiff.1 (List.isPrefixOf_iff_prefix.1 hchk)
      have hrun : secure_join cwd base user
          = .ok (normpath (osJoin (abspath cwd base) user)) := by
        simp only [secure_join]
        rw [if_pos hchk]
      refine ⟨⟨fun _ => hin, fun _ => hrun⟩, ?_, ?_⟩
      · intro he; rw [hrun] at he; exact absurd he (by simp)
      · intro hn; exact absurd hin hn
    · have hnin : ¬ strictlyInside (abspath cwd base)
          (normpath (osJoin (abspath cwd base) user)) := by
        intro hin
        exact hchk (List.isPrefixOf_iff_prefix.2 (hiff.2 hin))
      have hrun : secure_join cwd base user = .error .forbidden := by
        simp only [secure_join]
        rw [if_neg hchk]
      refine ⟨⟨fun he => ?_, fun hin => absurd hin hnin⟩, ⟨fun _ => hnin, fun _ => hrun⟩⟩
      rw [hrun] at he; exact absurd he (by simp)
  refine ⟨hmain.1, hmain.2, ?_⟩
  intro fs guess r hr
  unfold static_file_handler at hr
  cases hsj : secure_join cwd base user with
  | error e => rw [hsj] at hr; exact absurd hr (by simp)
  | ok p =>
    rw [hsj] at hr
    have hp : p = normpath (osJoin (abspath cwd base) user) := by
      have := hsj
      simp only [secure_join] at this
      by_cases hchk : (abspath cwd base ++ ['/']).isPrefixOf
          (normpath (osJoin (abspath cwd base) user)) = true
      · rw [if_pos hchk] at this
        injection this with h; exact h.symm
      · rw [if_neg hchk] at this
        exact absurd this (by simp)
    subst hp
    exact ⟨_, hmain.1.1 hsj, hr⟩

/-- Witness for `secure_join_amended` at a concrete directory layout. -/
theorem secure_join_amended_witness :
    isabs "/srv".toList = true ∧
    segs (abspath "/srv".toList "static".toList) ≠ [] ∧
    (secure_join "/srv".toList "static".toList "css/app.css".toList
        = .ok (normpath (osJoin (abspath "/srv".toList "static".toList) "css/app.css".toList))
      ↔ strictlyInside (abspath "/srv".toList "static".toList)
          (normpath (osJoin (abspath "/srv".toList "static".toList) "css/app.css".toList))) := by
  refine ⟨by decide, by decide, ?_⟩
  exact (secure_join_amended "/srv".toList "static".toList "css/app.css".toList
    (by decide) (by decide)).1

/-- C1 counterexample: when the base directory itself is the filesystem root
`/`, the resolved target `/etc` is strictly inside the base directory — so it
is not "outside" it in any sense — and yet `secure_join("/", "etc")` raises
`ForbiddenError` instead of returning `/etc` (the prefix check compares
against `"//"`).  The claim's "otherwise returns that normalized path" fails
here. -/
theorem secure_join_counterexample :
    strictlyInside (abspath "/".toList "/".toList)
        (normpath (osJoin (abspath "/".toList "/".toList) "etc".toList)) ∧
    normpath (osJoin (abspath "/".toList "/".toList) "etc".toList) = "/etc".toList ∧
    secure_join "/".toList "/".toList "etc".toList = .error .forbidden := by
  exact ⟨by decide, by decide, rfl⟩

/-- C8: `send_file` raises `NotFoundError` iff the path does not exist,
raises `ForbiddenError` iff it exists but is not a regular file, and
otherwise returns a response carrying the full file content under the
content type guessed from the file name (`guess`), falling back only when
the guess is `None`. -/
theorem send_file_spec (fs : FileSystem) (guess : PyStr → Option PyStr) (path : PyStr) :
    (send_file fs guess path = .error .notFound ↔ fs.pathExists path = false) ∧
    (send_file fs guess path = .error .forbidden
      ↔ fs.pathExists path = true ∧ fs.isfile path = false) ∧
    (fs.pathExists path = true → fs.isfile path = true →
      send_file fs guess path
        = .ok (mkResponse (fs.read path) ((guess path).getD "application/octet-stream".toList))) ∧
    (∀ ct, guess path = some ct → fs.pathExists path = true → fs.isfile path = true →
      send_file fs guess path = .ok (mkResponse (fs.read path) ct)) := by
  by_cases hex : fs.pathExists path = false
  · refine ⟨⟨fun _ => hex, fun _ => by simp [send_file, hex]⟩, ?_, ?_, ?_⟩
    · constructor
      · intro he; simp [send_file, hex] at he
      · intro ⟨h1, _⟩; rw [h1] at hex; exact absurd hex (by simp)
    · intro h1; rw [h1] at hex; exact absurd hex (by simp)
    · intro _ _ h1; rw [h1] at hex; exact absurd hex (by simp)
  · have hex' : fs.pathExists path = true := by
      cases h : fs.pathExists path
      · exact absurd h hex
      · rfl
    by_cases hif : fs.isfile path = false
    · refine ⟨?_, ⟨fun _ => ⟨hex', hif⟩, fun _ => by simp [send_file, hex', hif]⟩, ?_, ?_⟩
      · constructor
        · intro he; simp [send_file, hex', hif] at he
        · intro he; rw [he] at hex'; exact absurd hex' (by simp)
      · intro _ h2; rw [h2] at hif; exact absurd hif (by simp)
      · intro _ _ _ h2; rw [h2] at hif; exact absurd hif (by simp)
    · have hif' : fs.isfile path = true := by
        cases h : fs.isfile path
        · exact absurd h hif
        · rfl
      refine ⟨?_, ?_, ?_, ?_⟩
      · constructor
        · intro he; simp [send_file, hex', hif'] at he
        · intro he; rw [he] at hex'; exact absurd hex' (by simp)
      · constructor
        · intro he; simp [send_file, hex', hif'] at he
        · intro ⟨_, h2⟩; rw [h2] at hif; exact absurd rfl hif
      · intro _ _; simp [send_file, hex', hif']
      · intro ct hct _ _; simp [send_file, hex', hif', hct]

/-- Witness for `send_file_spec`: a one-file filesystem serving `/f.css`
with a guessed css content type. -/
theorem send_file_spec_witness :
    send_file
        ⟨fun p => decide (p = "/f.css".toList), fun p => decide (p = "/f.css".toList),
          fun _ => [104, 105]⟩
        (fun p => if p = "/f.css".toList then some "text/css".toList else none)
        "/f.css".toList
      = .ok (mkResponse [104, 105] "text/css".toList) := by
  exact (send_file_spec _ _ _).2.2.2 "text/css".toList (by decide) (by decide) (by decide)

/-- C9: every path returned by `secure_join` strictly extends the absolute
base followed by the path separator, so a user path resolving to the base
directory itself (for example `""` or `"."`) raises `ForbiddenError`; and
`send_file` falls back to `application/octet-stream` when `mimetypes`
cannot guess a type. -/
theorem secure_join_base_refused_and_octet_fallback :
    (∀ cwd base user : PyStr,
      normpath (osJoin (abspath cwd base) user) = abspath cwd base →
      secure_join cwd base user = .error .forbidden) ∧
    (∀ cwd base user t, secure_join cwd base user = .ok t →
      ∃ rest, t = abspath cwd base ++ '/' :: rest) ∧
    (∀ (fs : FileSystem) (guess : PyStr → Option PyStr) (path : PyStr),
      guess path = none → fs.pathExists path = true → fs.isfile path = true →
      send_file fs guess path
        = .ok (mkResponse (fs.read path) "application/octet-stream".toList)) := by
  refine ⟨?_, ?_, ?_⟩
  · intro cwd base user heq
    simp only [secure_join]
    rw [heq, if_neg ?_]
    intro h
    have hp := List.isPrefixOf_iff_prefix.1 h
    have hlen := hp.length_le
    rw [List.length_append] at hlen
    simp at hlen
  · intro cwd base user t ht
    simp only [secure_join] at ht
    by_cases hchk : (abspath cwd base ++ ['/']).isPrefixOf
        (normpath (osJoin (abspath cwd base) user)) = true
    · rw [if_pos hchk] at ht
      injection ht with ht
      obtain ⟨r, hr⟩ := List.isPrefixOf_iff_prefix.1 hchk
      refine ⟨r, ?_⟩
      rw [← ht, ← hr, List.append_assoc]
      rfl
    · rw [if_neg hchk] at ht
      exact absurd ht (by simp)
  · intro fs guess path hg h1 h2
    simp [send_file, h1, h2, hg]

/-- Witness for `secure_join_base_refused_and_octet_fallback`: both the empty
user path and `"."` resolve to the base itself and are refused, and a
filesystem with no guessable type serves `application/octet-stream`. -/
theorem secure_join_base_refused_witness :
    secure_join "/srv".toList "static".toList "".toList = .error .forbidden ∧
    secure_join "/srv".toList "static".toList ".".toList = .error .forbidden ∧
    send_file ⟨fun _ => true, fun _ => true, fun _ => [7]⟩ (fun _ => none) "/x".toList
      = .ok (mkResponse [7] "application/octet-stream".toList) := by
  refine ⟨?_, ?_, ?_⟩
  · exact secure_join_base_refused_and_octet_fallback.1 "/srv".toList "static".toList
      "".toList (by decide)
  · exact secure_join_base_refused_and_octet_fallback.1 "/srv".toList "static".toList
      ".".toList (by decide)
  · exact secure_join_base_refused_and_octet_fallback.2.2 _ _ "/x".toList rfl rfl rfl

theorem lexLeChars_total (a b : List Char) :
    lexLeChars a b = true ∨ lexLeChars b a = true := by
  induction a generalizing b with
  | nil => left; rfl
  | cons x as ih =>
    cases b with
    | nil => right; rfl
    | cons y bs =>
      rcases lt_trichotomy x y with h | h | h
      · left; simp [lexLeChars, h]
      · subst h
        rcases ih bs with h2 | h2
        · left; simp [lexLeChars, h2]
        · right; simp [lexLeChars, h2]
      · right; simp [lexLeChars, h]

theorem lexLeChars_trans {a b c : List Char} (h1 : lexLeChars a b = true)
    (h2 : lexLeChars b c = true) : lexLeChars a c = true := by
  induction a generalizing b c with
  | nil => rfl
  | cons x as ih =>
    cases b with
    | nil => simp [lexLeChars] at h1
    | cons y bs =>
      cases c with
      | nil => simp [lexLeChars] at h2
      | cons z cs =>
        simp only [lexLeChars] at h1 h2 ⊢
        by_cases hxy : x < y
        · by_cases hyz : y < z
          · rw [if_pos (lt_trans hxy hyz)]
          · by_cases hzy : z < y
            · rw [if_neg hyz, if_pos hzy] at h2; exact absurd h2 (by simp)
            · have : y = z := le_antisymm (not_lt.1 hzy) (not_lt.1 hyz)
              subst this
              rw [if_pos hxy]
        · by_cases hyx : y < x
          · rw [if_neg hxy, if_pos hyx] at h1; exact absurd h1 (by simp)
          · have hxy' : x = y := le_antisymm (not_lt.1 hyx) (not_lt.1 hxy)
            subst hxy'
            rw [if_neg hxy, if_neg hxy] at h1
            by_cases hyz : x < z
            · rw [if_pos hyz]
            · by_cases hzy : z < x
              · rw [if_neg hyz, if_pos hzy] at h2; exact absurd h2 (by simp)
              · have : x = z := le_antisymm (not_lt.1 hzy) (not_lt.1 hyz)
                subst this
                rw [if_neg hyz] at h2 ⊢
                rw [if_neg (lt_irrefl x)] at h2 ⊢
                exact ih h1 h2

theorem lexLeChars_antisymm {a b : List Char} (h1 : lexLeChars a b = true)
    (h2 : lexLeChars b a = true) : a = b := by
  induction a generalizing b with
  | nil =>
    cases b with
    | nil => rfl
    | cons y bs => simp [lexLeChars] at h2
  | cons x as ih =>
    cases b with
    | nil => simp [lexLeChars] at h1
    | cons y bs =>
      simp only [lexLeChars] at h1 h2
      by_cases hxy : x < y
      · rw [if_neg (lt_asymm hxy), if_pos hxy] at h2; exact absurd h2 (by simp)
      · by_cases hyx : y < x
        · rw [if_neg hxy, if_pos hyx] at h1; exact absurd h1 (by simp)
        · have hxy' : x = y := le_antisymm (not_lt.1 hyx) (not_lt.1 hxy)
          subst hxy'
          rw [if_neg hxy, if_neg (lt_irrefl x)] at h1 h2
          rw [ih h1 h2]

instance : IsTotal String StrLe :=
  ⟨fun a b => lexLeChars_total a.toList b.toList⟩

instance : IsTrans String StrLe :=
  ⟨fun _ _ _ h1 h2 => lexLeChars_trans h1 h2⟩

instance : IsAntisymm String StrLe :=
  ⟨fun _ _ h1 h2 => String.ext (lexLeChars_antisymm h1 h2)⟩

theorem validateFields_ok_shape (fields : List (String × FieldSpec))
    (input : List (String × JVal)) :
    (validateFields fields input).1 = [] →
    (validateFields fields input).2 = fields.filterMap (fun nf =>
      if nf.2.readOnly = true then none
      else (input.lookup nf.1).map (fun v => (nf.1, v))) := by
  induction fields with
  | nil => intro _; simp [validateFields]
  | cons nf rest ih =>
    obtain ⟨name, f⟩ := nf
    intro herr
    simp only [validateFields] at herr ⊢
    rw [List.filterMap_cons]
    cases hro : f.readOnly with
    | true =>
      simp only [hro, if_true] at herr ⊢
      simp only [ih herr]
    | false =>
      simp only [hro, Bool.false_eq_true, if_false] at herr ⊢
      cases hl : input.lookup name with
      | none =>
        simp only [hl] at herr ⊢
        cases hreq : f.required with
        | true =>
          simp only [hreq, if_true] at herr
          exact absurd herr (by simp)
        | false =>
          simp only [hreq, Bool.false_eq_true, if_false] at herr ⊢
          simp only [Option.map_none']
          exact ih herr
      | some v =>
        simp only [hl] at herr ⊢
        cases hc : checkValue f v with
        | nil =>
          simp only [hc] at herr ⊢
          simp only [Option.map_some']
          rw [ih herr]
        | cons e es =>
          simp only [hc] at herr
          exact absurd herr (by simp)

theorem validate_eq_match (fields : List (String × FieldSpec))
    (input : List (String × JVal)) :
    validate fields input =
      match validateFields fields input with
      | ([], out) => Except.ok out
      | (errs, _) => Except.error errs := rfl

/-- C2: validating `{id: text(read_only, nullable, optional), name: text,
password: text(write_only)}` against `{"id": null, "name": "joe",
"password": "password"}` succeeds with `validated_data = {"name": "joe",
"password": "password"}`; in general, on success `validated_data` holds
every supplied field except the read_only ones (dropped even when the client
supplied a value), in declaration order, with write_only fields validated
and kept. -/
theorem validate_read_write_asymmetry :
    (∀ fields input out, validate fields input = .ok out →
      out = fields.filterMap (fun nf =>
        if nf.2.readOnly = true then none
        else (input.lookup nf.1).map (fun v => (nf.1, v)))) ∧
    validate
      [("id", .text false true true false false none),
       ("name", .text true false false false false none),
       ("password", .text true false false true false none)]
      [("id", JVal.null), ("name", JVal.s "joe"), ("password", JVal.s "password")]
      = .ok [("name", JVal.s "joe"), ("password", JVal.s "password")] := by
  constructor
  · intro fields input out hok
    rw [validate_eq_match] at hok
    cases hv : validateFields fields input with
    | mk errs outs =>
      rw [hv] at hok
      cases errs with
      | nil =>
        simp only at hok
        injection hok with h
        subst h
        have h2 := validateFields_ok_shape fields input (by rw [hv])
        rw [hv] at h2
        exact h2
      | cons e es => exact absurd hok (by simp)
  · have hcv1 : checkValue (FieldSpec.text true false false false false none)
        (JVal.s "joe") = [] := by
      rw [checkValue.eq_def, checkItem.eq_def]
      rfl
    have hcv2 : checkValue (FieldSpec.text true false false true false none)
        (JVal.s "password") = [] := by
      rw [checkValue.eq_def, checkItem.eq_def]
      rfl
    have e1 : (("name" : String) == "id") = false := by decide
    have e2 : (("name" : String) == "name") = true := by decide
    have e3 : (("password" : String) == "id") = false := by decide
    have e4 : (("password" : String) == "name") = false := by decide
    have e5 : (("password" : String) == "password") = true := by decide
    have hv : validateFields
        [("id", FieldSpec.text false true true false false none),
         ("name", FieldSpec.text true false false false false none),
         ("password", FieldSpec.text true false false true false none)]
        [("id", JVal.null), ("name", JVal.s "joe"), ("password", JVal.s "password")]
        = ([], [("name", JVal.s "joe"), ("password", JVal.s "password")]) := by
      simp only [validateFields.eq_1, validateFields.eq_2, List.lookup,
        FieldSpec.readOnly, FieldSpec.required, e1, e2, e3, e4, e5, hcv1, hcv2,
        Bool.false_eq_true, Bool.true_eq_false, if_false, if_true]
    rw [validate_eq_match, hv]

/-- Witness for `validate_read_write_asymmetry`: the general shape statement
instantiated at the read-only/write-only serializer of the test suite. -/
theorem validate_read_write_asymmetry_witness :
    [("name", JVal.s "joe"), ("password", JVal.s "password")]
      = ([("id", FieldSpec.text false true true false false none),
          ("name", FieldSpec.text true false false false false none),
          ("password", FieldSpec.text true false false true false none)].filterMap
          (fun nf =>
            if nf.2.readOnly = true then none
            else (([("id", JVal.null), ("name", JVal.s "joe"),
                    ("password", JVal.s "password")].lookup nf.1).map
                  (fun v => (nf.1, v))))) :=
  validate_read_write_asymmetry.1 _ _ _ validate_read_write_asymmetry.2

/-- C3: the `data` projection emits, in declaration order, every declared
field except the write_only ones, omitting fields absent on the instance and
recursively projecting nested instances by the same rule; on the test
instance `{id: "abc", name: "joe", password: "pw"}` it yields
`{"id": "abc", "name": "joe"}`, and a nested dog instance is projected
recursively. -/
theorem data_projection_asymmetry :
    (∀ fields inst, dataOfFields fields inst = fields.filterMap (fun nf =>
      if nf.2.writeOnly = true then none
      else (inst.lookup nf.1).bind (fun iv =>
        (dataOfField nf.2 iv).map (fun j => (nf.1, j))))) ∧
    dataOfFields
      [("id", .text false true true false false none),
       ("name", .text true false false false false none),
       ("password", .text true false false true false none)]
      [("id", .v (.s "abc")), ("name", .v (.s "joe")), ("password", .v (.s "pw"))]
      = [("id", JVal.s "abc"), ("name", JVal.s "joe")] ∧
    dataOfFields
      [("id", .text false true true false false none),
       ("name", .text true false false false false none),
       ("password", .text true false false true false none),
       ("dog", .nested
          [("id", .text false true true false false none),
           ("name", .text true false false false false none)]
          true false true false false)]
      [("id", .v (.s "abcd1234")), ("name", .v (.s "joe")),
       ("password", .v (.s "password")),
       ("dog", .inst [("id", .v (.s "efgh5678")), ("name", .v (.s "boby"))])]
      = [("id", JVal.s "abcd1234"), ("name", JVal.s "joe"),
         ("dog", JVal.obj [("id", JVal.s "efgh5678"), ("name", JVal.s "boby")])] := by
  refine ⟨?_, rfl, rfl⟩
  intro fields inst
  induction fields with
  | nil => simp [dataOfFields]
  | cons nf rest ih =>
    obtain ⟨name, f⟩ := nf
    simp only [dataOfFields]
    rw [List.filterMap_cons]
    cases hwo : f.writeOnly with
    | true => simp only [hwo, if_true, ih]
    | false =>
      simp only [hwo, Bool.false_eq_true, if_false]
      cases hl : inst.lookup name with
      | none => simp [hl, ih]
      | some iv =>
        cases hdf : dataOfField f iv with
        | none => simp [hl, hdf, ih]
        | some j => simp [hl, hdf, ih]

/-- C4: the schema of `{name: text, toys: text(many, nullable)}` is exactly
the closed object document with `toys` widened to `["array","null"]` outside
and `["string","null"]` in the items. -/
theorem schema_many_nullable :
    schemaObj false
      [("name", .text true false false false false none),
       ("toys", .text true true false false true none)]
    = .obj [("type", .s "object"),
            ("properties", .obj
              [("name", .obj [("type", .s "string")]),
               ("toys", .obj [("type", .arr [.s "array", .s "null"]),
                              ("items", .obj [("type", .arr [.s "string", .s "null"])])])]),
            ("required", .arr [.s "name", .s "toys"]),
            ("additionalProperties", .b false)] := rfl

/-- C6: for every serializer definition the schema document's `required`
entry lists exactly the non-optional field names, lexicographically sorted
and independent of declaration order, and the document carries
`additionalProperties: false`. -/
theorem schema_required_closed (nb : Bool) (fields : List (String × FieldSpec)) :
    jGet (schemaObj nb fields) "required"
      = some (.arr ((requiredNames fields).map .s)) ∧
    jGet (schemaObj nb fields) "additionalProperties" = some (.b false) ∧
    (requiredNames fields).Sorted StrLe ∧
    (requiredNames fields).Perm
      ((fields.filter (fun nf => nf.2.required)).map Prod.fst) ∧
    (∀ fields2, fields2.Perm fields → requiredNames fields2 = requiredNames fields) := by
  refine ⟨rfl, rfl, List.sorted_insertionSort _ _, List.perm_insertionSort _ _, ?_⟩
  intro fields2 hp
  exact List.eq_of_perm_of_sorted
    (((List.perm_insertionSort _ _).trans ((hp.filter _).map _)).trans
      (List.perm_insertionSort _ _).symm)
    (List.sorted_insertionSort _ _) (List.sorted_insertionSort _ _)

/-- Witness for `schema_required_closed`: two declaration orders of the same
fields produce the identical sorted `required` list. -/
theorem schema_required_closed_witness :
    requiredNames
        [("password", FieldSpec.text true false false false false (some 8)),
         ("email", FieldSpec.email true false false false false none),
         ("dog", FieldSpec.nested [] true true false false false)]
      = requiredNames
        [("email", FieldSpec.email true false false false false none),
         ("password", FieldSpec.text true false false false false (some 8)),
         ("dog", FieldSpec.nested [] true true false false false)] ∧
    requiredNames
        [("email", FieldSpec.email true false false false false none),
         ("password", FieldSpec.text true false false false false (some 8)),
         ("dog", FieldSpec.nested [] true true false false false)]
      = ["dog", "email", "password"] :=
  ⟨(schema_required_closed false _).2.2.2.2 _ (List.Perm.swap _ _ _), rfl⟩

theorem replaceFirst_fresh {hs : List (PyStr × PyStr)} {n : PyStr}
    (h : ∀ p ∈ hs, p.1 ≠ n) (v : PyStr) : replaceFirst hs n v = hs ++ [(n, v)] := by
  induction hs with
  | nil => rfl
  | cons p t ih =>
    obtain ⟨a, b⟩ := p
    rw [replaceFirst, if_neg (h (a, b) (List.mem_cons_self _ _)),
      ih (fun q hq => h q (List.mem_cons_of_mem _ hq))]
    rfl

theorem replaceFirst_append_last {hs : List (PyStr × PyStr)} {n : PyStr}
    (h : ∀ p ∈ hs, p.1 ≠ n) (v1 v2 : PyStr) :
    replaceFirst (hs ++ [(n, v1)]) n v2 = hs ++ [(n, v2)] := by
  induction hs with
  | nil => simp [replaceFirst]
  | cons p t ih =>
    obtain ⟨a, b⟩ := p
    rw [List.cons_append, replaceFirst,
      if_neg (h (a, b) (List.mem_cons_self _ _)),
      ih (fun q hq => h q (List.mem_cons_of_mem _ hq))]
    rfl

/-- C5: on a response whose headers do not yet carry the (normalized) name,
`insert_header` then `append_header` for that name yields two distinct
entries in insertion order, while `insert_header` twice yields exactly one
entry holding the second value; the stored names are the lower-cased form of
what was written. -/
theorem header_insert_append (r : PyResponse) (name v1 v2 : PyStr)
    (hfresh : ∀ p ∈ r.headers, p.1 ≠ lowerName name) :
    (append_header (insert_header r name v1) name v2).headers
        = r.headers ++ [(lowerName name, v1), (lowerName name, v2)] ∧
    (insert_header (insert_header r name v1) name v2).headers
        = r.headers ++ [(lowerName name, v2)] := by
  constructor
  · show replaceFirst r.headers (lowerName name) v1 ++ [(lowerName name, v2)] = _
    rw [replaceFirst_fresh hfresh, List.append_assoc]
    rfl
  · show replaceFirst (replaceFirst r.headers (lowerName name) v1) (lowerName name) v2 = _
    rw [replaceFirst_fresh hfresh, replaceFirst_append_last hfresh]

/-- Witness for `header_insert_append`: the multi-cookie scenario of the test
suite, with the mixed-case name `Set-Cookie` exposed lower-cased. -/
theorem header_insert_append_witness :
    (append_header
        (insert_header (mkResponse [] "application/json".toList)
          "Set-Cookie".toList "userId=abcd123;Path=/".toList)
        "Set-Cookie".toList "theme=dark;Path=/".toList).headers
      = [("content-type".toList, "application/json".toList),
         ("set-cookie".toList, "userId=abcd123;Path=/".toList),
         ("set-cookie".toList, "theme=dark;Path=/".toList)] := by
  rw [(header_insert_append (mkResponse [] "application/json".toList)
    "Set-Cookie".toList "userId=abcd123;Path=/".toList "theme=dark;Path=/".toList
    (by decide)).1]
  rfl

theorem joinSep_splitSep (l : PyStr) : joinSep (splitSep l) = l := by
  induction l with
  | nil => rfl
  | cons c t ih =>
    by_cases hc : c = '/'
    · subst hc
      rw [splitSep_cons_slash]
      cases h : splitSep t with
      | nil => exact absurd h (splitSep_ne_nil t)
      | cons a rest =>
        rw [joinSep_cons_cons, List.nil_append, ← h, ih]
    · obtain ⟨a, rest, h1, h2⟩ := splitSep_cons_ne hc t
      rw [h2]
      cases rest with
      | nil =>
        show c :: a = c :: t
        rw [h1] at ih
        simpa [joinSep] using congrArg (c :: ·) ih
      | cons r rrest =>
        rw [joinSep_cons_cons]
        rw [h1] at ih
        rw [joinSep_cons_cons] at ih
        rw [List.cons_append, ih]

theorem pathSegs_append_slash (a b : PyStr) :
    pathSegs (a ++ '/' :: b) = pathSegs a ++ splitSep b := by
  unfold pathSegs
  rw [splitSep_append_slash]
  cases h : splitSep a with
  | nil => exact absurd h (splitSep_ne_nil a)
  | cons x xs =>
    cases x with
    | nil => simp
    | cons c cs => simp

theorem matchPattern_wildcard_extend (pre : List Segment) (name : PyStr)
    (hnw : ∀ seg ∈ pre, seg.isWildcard = false) :
    ∀ xs caps extra, matchPattern pre xs = some caps → extra ≠ [] →
      matchPattern (pre ++ [.wildcard name]) (xs ++ extra)
        = some (caps ++ [(name, joinSep extra)]) := by
  induction pre with
  | nil =>
    intro xs caps extra hm hex
    cases xs with
    | nil =>
      have hc : caps = [] := by
        have : (some [] : Option (List (PyStr × PyStr))) = some caps := hm
        injection this with h
        exact h.symm
      subst hc
      cases extra with
      | nil => exact absurd rfl hex
      | cons e es => rfl
    | cons x xs' => exact absurd hm (by simp [matchPattern])
  | cons seg ps ih =>
    intro xs caps extra hm hex
    cases seg with
    | lit s =>
      cases xs with
      | nil => exact absurd hm (by simp [matchPattern])
      | cons x xs' =>
        rw [matchPattern] at hm
        by_cases hsx : s = x
        · rw [if_pos hsx] at hm
          have hrec := ih (fun z hz => hnw z (List.mem_cons_of_mem _ hz))
            xs' caps extra hm hex
          show matchPattern (.lit s :: (ps ++ [.wildcard name])) (x :: (xs' ++ extra)) = _
          rw [matchPattern, if_pos hsx, hrec]
        · rw [if_neg hsx] at hm
          exact absurd hm (by simp)
    | param n =>
      cases xs with
      | nil => exact absurd hm (by simp [matchPattern])
      | cons x xs' =>
        rw [matchPattern] at hm
        cases hmm : matchPattern ps xs' with
        | none => rw [hmm] at hm; exact absurd hm (by simp)
        | some caps' =>
          rw [hmm] at hm
          have hc : caps = (n, x) :: caps' := by
            simp only [Option.map_some'] at hm
            injection hm with h
            exact h.symm
          subst hc
          have hrec := ih (fun z hz => hnw z (List.mem_cons_of_mem _ hz))
            xs' caps' extra hmm hex
          show matchPattern (.param n :: (ps ++ [.wildcard name])) (x :: (xs' ++ extra)) = _
          rw [matchPattern, hrec]
          rfl
    | wildcard n2 =>
      have := hnw _ (List.mem_cons_self _ _)
      simp [Segment.isWildcard] at this

/-- C7: for a registered pattern ending in a trailing Wildcard, whenever the
non-wildcard part matches the path's leading segments, `resolve` accepts any
non-empty remaining path suffix and captures it verbatim as a single string,
interior slashes included. -/
theorem wildcard_resolve (pre : List Segment) (name preStr suffix : PyStr)
    (caps : List (PyStr × PyStr))
    (hnw : ∀ seg ∈ pre, seg.isWildcard = false)
    (hm : matchPattern pre (pathSegs preStr) = some caps)
    (_hsuf : suffix ≠ []) :
    resolvePattern (pre ++ [.wildcard name]) (preStr ++ '/' :: suffix)
      = some (caps ++ [(name, suffix)]) := by
  unfold resolvePattern
  rw [pathSegs_append_slash]
  rw [matchPattern_wildcard_extend pre name hnw (pathSegs preStr) caps
    (splitSep suffix) hm (splitSep_ne_nil suffix)]
  rw [joinSep_splitSep]

/-- Witness for `wildcard_resolve`: the static-file route `/static/{*path}`
resolving `/static/css/app.css`, the wildcard capturing `css/app.css` with
its interior slash. -/
theorem wildcard_resolve_witness :
    resolvePattern [.lit "static".toList, .wildcard "path".toList]
        "/static/css/app.css".toList
      = some [("path".toList, "css/app.css".toList)] := by
  have h := wildcard_resolve [.lit "static".toList] "path".toList
    "/static".toList "css/app.css".toList [] (by decide) rfl (by decide)
  simpa using h

end Oxapy

namespace FixStubs



theorem fixF_congr (n : Nat) : ∀ f1 f2 s, s.length < f1 → s.length < f2 → s.length ≤ n →
    fixF f1 s = fixF f2 s := by
  induction n with
  | zero =>
    intro f1 f2 s h1 h2 h3
    have hnil : s = [] := List.length_eq_zero.1 (by omega)
    subst hnil
    cases f1 with
    | zero => omega
    | succ a =>
      cases f2 with
      | zero => omega
      | succ b => rfl
  | succ n ih =>
    intro f1 f2 s h1 h2 h3
    cases f1 with
    | zero => omega
    | succ a =>
      cases f2 with
      | zero => omega
      | succ b =>
        cases s with
        | nil => rfl
        | cons c cs =>
          rw [fixF, fixF]
          cases htm : tryMatch (c :: cs) with
          | some pr =>
            obtain ⟨r, rest⟩ := pr
            have hlt := tryMatch_rest_lt htm
            simp at h1 h2 h3 hlt
            show r ++ fixF a rest = r ++ fixF b rest
            rw [ih a b rest (by omega) (by omega) (by omega)]
          | none =>
            simp at h1 h2 h3
            show c :: fixF a cs = c :: fixF b cs
            rw [ih a b cs (by omega) (by omega) (by omega)]

theorem fix_nil : fix_new_signatures [] = [] := rfl

theorem fix_some {s r rest : List Char} (h : tryMatch s = some (r, rest)) :
    fix_new_signatures s = r ++ fix_new_signatures rest := by
  cases s with
  | nil => simp [tryMatch, runM] at h
  | cons c cs =>
    show fixF ((c :: cs).length + 1) (c :: cs) = r ++ fixF (rest.length + 1) rest
    rw [fixF, h]
    have hlt := tryMatch_rest_lt h
    simp at hlt
    show r ++ fixF (c :: cs).length rest = r ++ fixF (rest.length + 1) rest
    rw [fixF_congr rest.length ((c :: cs).length) (rest.length + 1) rest (by simp; omega)
      (by omega) (by omega)]

theorem fix_none_cons {c : Char} {cs : List Char} (h : tryMatch (c :: cs) = none) :
    fix_new_signatures (c :: cs) = c :: fix_new_signatures cs := by
  show fixF ((c :: cs).length + 1) (c :: cs) = c :: fixF (cs.length + 1) cs
  rw [fixF, h]
  rfl

theorem runM_append (st : MSt) (a b : List Char) :
    runM st (a ++ b) =
      match runPart st a with
      | .going st' => runM st' b
      | .accepted g rest => some (g, rest ++ b)
      | .rejected => none := by
  induction a generalizing st with
  | nil => simp [runPart]
  | cons ch r ih =>
    rw [List.cons_append, runM, runPart]
    cases hs : step st ch with
    | reject => rfl
    | accept g => rfl
    | next st' => exact ih st'

theorem runPart_append (st : MSt) (a b : List Char) :
    runPart st (a ++ b) =
      match runPart st a with
      | .going st' => runPart st' b
      | .accepted g rest => .accepted g (rest ++ b)
      | .rejected => .rejected := by
  induction a generalizing st with
  | nil => simp [runPart]
  | cons ch r ih =>
    rw [List.cons_append, runPart, runPart]
    cases hs : step st ch with
    | reject => rfl
    | accept g => rfl
    | next st' => exact ih st'

theorem take_succ_of_get? (l : List Char) (n : Nat) (c : Char) (h : l.get? n = some c) :
    l.take (n + 1) = l.take n ++ [c] := by
  rw [List.take_succ, List.get?_eq_getElem? l n] at *
  rw [h]
  rfl

theorem lt_of_get? (l : List Char) (n : Nat) (c : Char) (h : l.get? n = some c) :
    n < l.length := by
  rw [List.get?_eq_getElem? l n] at h
  exact (List.getElem?_eq_some.1 h).1

theorem mem_of_get? {l : List Char} {n : Nat} {c : Char} (h : l.get? n = some c) : c ∈ l :=
  List.get?_mem h

theorem step_next_cons {st : MSt} {ch : Char} {st' : MSt}
    (h : step st ch = .next st') (hinv : StInv st) :
    consSt st' = consSt st ++ [ch] ∧ StInv st' := by
  cases st with
  | lit k =>
    rw [step] at h
    by_cases hg : newLit.get? k = some ch
    · rw [if_pos hg] at h
      by_cases hk : k + 1 = newLit.length
      · rw [if_pos hk] at h
        injection h with h2
        subst h2
        refine ⟨?_, by simp [StInv]⟩
        show newLit ++ [] = newLit.take k ++ [ch]
        rw [List.append_nil, ← take_succ_of_get? _ _ _ hg, hk, List.take_length]
      · rw [if_neg hk] at h
        injection h with h2
        subst h2
        exact ⟨(take_succ_of_get? _ _ _ hg).symm ▸ rfl, trivial⟩
    · rw [if_neg hg] at h
      exact absurd h (by simp)
  | args P =>
    rw [step] at h
    by_cases hch : ch = ')'
    · rw [if_pos hch] at h
      by_cases hp : P = []
      · rw [if_pos hp] at h; exact absurd h (by simp)
      · rw [if_neg hp] at h
        injection h with h2
        subst h2 hch
        constructor
        · show newLit ++ P ++ [')'] ++ [] = (newLit ++ P) ++ [')']
          simp [List.append_assoc]
        · exact ⟨hinv, hp, by intro c hc; simp at hc⟩
    · rw [if_neg hch] at h
      injection h with h2
      subst h2
      constructor
      · show newLit ++ (P ++ [ch]) = (newLit ++ P) ++ [ch]
        simp [List.append_assoc]
      · intro hmem
        rcases List.mem_append.1 hmem with hm | hm
        · exact hinv hm
        · simp at hm; exact hch hm.symm
  | w1 P W1 =>
    rw [step] at h
    obtain ⟨h1, h2, h3⟩ := hinv
    by_cases hws : isWsB ch = true
    · rw [if_pos hws] at h
      injection h with he
      subst he
      constructor
      · show newLit ++ P ++ [')'] ++ (W1 ++ [ch]) = (newLit ++ P ++ [')'] ++ W1) ++ [ch]
        simp [List.append_assoc]
      · refine ⟨h1, h2, ?_⟩
        intro c hc
        rcases List.mem_append.1 hc with hm | hm
        · exact h3 c hm
        · simp at hm; subst hm; exact hws
    · rw [if_neg hws] at h
      by_cases hd : ch = '-'
      · rw [if_pos hd] at h
        injection h with he
        subst he hd
        exact ⟨rfl, h1, h2, h3⟩
      · rw [if_neg hd] at h
        exact absurd h (by simp)
  | gt P W1 =>
    rw [step] at h
    obtain ⟨h1, h2, h3⟩ := hinv
    by_cases hd : ch = '>'
    · rw [if_pos hd] at h
      injection h with he
      subst he hd
      constructor
      · show newLit ++ P ++ [')'] ++ W1 ++ arrowLit ++ []
            = (newLit ++ P ++ [')'] ++ W1 ++ ['-']) ++ ['>']
        simp [List.append_assoc, arrowLit]
      · exact ⟨h1, h2, h3, by intro c hc; simp at hc⟩
    · rw [if_neg hd] at h
      exact absurd h (by simp)
  | w2 P W1 W2 =>
    rw [step] at h
    obtain ⟨h1, h2, h3, h4⟩ := hinv
    by_cases hws : isWsB ch = true
    · rw [if_pos hws] at h
      injection h with he
      subst he
      constructor
      · show newLit ++ P ++ [')'] ++ W1 ++ arrowLit ++ (W2 ++ [ch])
            = (newLit ++ P ++ [')'] ++ W1 ++ arrowLit ++ W2) ++ [ch]
        simp [List.append_assoc]
      · refine ⟨h1, h2, h3, ?_⟩
        intro c hc
        rcases List.mem_append.1 hc with hm | hm
        · exact h4 c hm
        · simp at hm; subst hm; exact hws
    · rw [if_neg hws] at h
      by_cases ht : ch = 't'
      · rw [if_pos ht] at h
        injection h with he
        subst he ht
        constructor
        · show newLit ++ P ++ [')'] ++ W1 ++ arrowLit ++ W2 ++ tupleLit.take 1
              = (newLit ++ P ++ [')'] ++ W1 ++ arrowLit ++ W2) ++ ['t']
          simp [List.append_assoc]
          rfl
        · exact ⟨⟨h1, h2, h3, h4⟩, le_refl 1⟩
      · rw [if_neg ht] at h
        exact absurd h (by simp)
  | tup P W1 W2 k =>
    rw [step] at h
    obtain ⟨hw, hk⟩ := hinv
    by_cases hg : tupleLit.get? k = some ch
    · rw [if_pos hg] at h
      by_cases hk6 : k + 1 = tupleLit.length
      · rw [if_pos hk6] at h
        injection h with he
        subst he
        constructor
        · show newLit ++ P ++ [')'] ++ W1 ++ arrowLit ++ W2 ++ tupleLit
              = (newLit ++ P ++ [')'] ++ W1 ++ arrowLit ++ W2 ++ tupleLit.take k) ++ [ch]
          rw [List.append_assoc _ (tupleLit.take k) [ch], ← take_succ_of_get? _ _ _ hg, hk6,
            List.take_length]
        · exact hw
      · rw [if_neg hk6] at h
        injection h with he
        subst he
        constructor
        · show newLit ++ P ++ [')'] ++ W1 ++ arrowLit ++ W2 ++ tupleLit.take (k + 1)
              = (newLit ++ P ++ [')'] ++ W1 ++ arrowLit ++ W2 ++ tupleLit.take k) ++ [ch]
          rw [List.append_assoc _ (tupleLit.take k) [ch], ← take_succ_of_get? _ _ _ hg]
        · exact ⟨hw, by omega⟩
    · rw [if_neg hg] at h
      exact absurd h (by simp)
  | ist P W1 W2 =>
    rw [step] at h
    by_cases hi : isIdentStart ch = true
    · rw [if_pos hi] at h
      injection h with he
      subst he
      constructor
      · show newLit ++ P ++ [')'] ++ W1 ++ arrowLit ++ W2 ++ tupleLit ++ [ch]
            = (newLit ++ P ++ [')'] ++ W1 ++ arrowLit ++ W2 ++ tupleLit) ++ [ch]
        rfl
      · refine ⟨hinv, by simp, ?_⟩
        intro c hc
        simp at hc
        subst hc
        simp [isIdentCont, hi]
    · rw [if_neg hi] at h
      exact absurd h (by simp)
  | idn P W1 W2 N =>
    rw [step] at h
    obtain ⟨hw, hn1, hn2⟩ := hinv
    by_cases hi : isIdentCont ch = true
    · rw [if_pos hi] at h
      injection h with he
      subst he
      constructor
      · show newLit ++ P ++ [')'] ++ W1 ++ arrowLit ++ W2 ++ tupleLit ++ (N ++ [ch])
            = (newLit ++ P ++ [')'] ++ W1 ++ arrowLit ++ W2 ++ tupleLit ++ N) ++ [ch]
        simp [List.append_assoc]
      · refine ⟨hw, by simp [hn1], ?_⟩
        intro c hc
        rcases List.mem_append.1 hc with hm | hm
        · exact hn2 c hm
        · simp at hm; subst hm; exact hi
    · rw [if_neg hi] at h
      by_cases hc : ch = ','
      · rw [if_pos hc] at h
        injection h with he
        subst he hc
        constructor
        · show newLit ++ P ++ [')'] ++ W1 ++ arrowLit ++ W2 ++ tupleLit ++ N ++ [','] ++ []
              = (newLit ++ P ++ [')'] ++ W1 ++ arrowLit ++ W2 ++ tupleLit ++ N) ++ [',']
          simp [List.append_assoc]
        · exact ⟨⟨hw, hn1, hn2⟩, by simp⟩
      · rw [if_neg hc] at h
        exact absurd h (by simp)
  | mid P W1 W2 N M =>
    rw [step] at h
    obtain ⟨hi, hm⟩ := hinv
    by_cases hc : ch = ']'
    · rw [if_pos hc] at h
      by_cases hme : M = []
      · rw [if_pos hme] at h; exact absurd h (by simp)
      · rw [if_neg hme] at h
        injection h with he
        subst he hc
        constructor
        · show newLit ++ P ++ [')'] ++ W1 ++ arrowLit ++ W2 ++ tupleLit ++ N ++ [','] ++ M
              ++ [']'] ++ []
              = (newLit ++ P ++ [')'] ++ W1 ++ arrowLit ++ W2 ++ tupleLit ++ N ++ [','] ++ M)
              ++ [']']
          simp [List.append_assoc]
        · exact ⟨⟨hi, hm, hme⟩, by intro c hc2; simp at hc2⟩
    · rw [if_neg hc] at h
      injection h with he
      subst he
      constructor
      · show newLit ++ P ++ [')'] ++ W1 ++ arrowLit ++ W2 ++ tupleLit ++ N ++ [','] ++ (M ++ [ch])
            = (newLit ++ P ++ [')'] ++ W1 ++ arrowLit ++ W2 ++ tupleLit ++ N ++ [','] ++ M) ++ [ch]
        simp [List.append_assoc]
      · refine ⟨hi, ?_⟩
        intro hmem
        rcases List.mem_append.1 hmem with hm2 | hm2
        · exact hm hm2
        · simp at hm2; exact hc hm2.symm
  | w3 P W1 W2 N M W3 =>
    rw [step] at h
    obtain ⟨hi, hw3⟩ := hinv
    by_cases hws : isWsB ch = true
    · rw [if_pos hws] at h
      injection h with he
      subst he
      constructor
      · show newLit ++ P ++ [')'] ++ W1 ++ arrowLit ++ W2 ++ tupleLit ++ N ++ [','] ++ M
            ++ [']'] ++ (W3 ++ [ch])
            = (newLit ++ P ++ [')'] ++ W1 ++ arrowLit ++ W2 ++ tupleLit ++ N ++ [','] ++ M
              ++ [']'] ++ W3) ++ [ch]
        simp [List.append_assoc]
      · refine ⟨hi, ?_⟩
        intro c hc
        rcases List.mem_append.1 hc with hm | hm
        · exact hw3 c hm
        · simp at hm; subst hm; exact hws
    · rw [if_neg hws] at h
      by_cases hc : ch = ':'
      · rw [if_pos hc] at h
        injection h with he
        subst he hc
        constructor
        · show newLit ++ P ++ [')'] ++ W1 ++ arrowLit ++ W2 ++ tupleLit ++ N ++ [','] ++ M
              ++ [']'] ++ W3 ++ [':'] ++ []
              = (newLit ++ P ++ [')'] ++ W1 ++ arrowLit ++ W2 ++ tupleLit ++ N ++ [','] ++ M
                ++ [']'] ++ W3) ++ [':']
          simp [List.append_assoc]
        · exact ⟨⟨hi, hw3⟩, by intro c hc2; simp at hc2⟩
      · rw [if_neg hc] at h
        exact absurd h (by simp)
  | w4 P W1 W2 N M W3 W4 =>
    rw [step] at h
    obtain ⟨hi, hw4⟩ := hinv
    by_cases hws : isWsB ch = true
    · rw [if_pos hws] at h
      injection h with he
      subst he
      constructor
      · show newLit ++ P ++ [')'] ++ W1 ++ arrowLit ++ W2 ++ tupleLit ++ N ++ [','] ++ M
            ++ [']'] ++ W3 ++ [':'] ++ (W4 ++ [ch])
            = (newLit ++ P ++ [')'] ++ W1 ++ arrowLit ++ W2 ++ tupleLit ++ N ++ [','] ++ M
              ++ [']'] ++ W3 ++ [':'] ++ W4) ++ [ch]
        simp [List.append_assoc]
      · refine ⟨hi, ?_⟩
        intro c hc
        rcases List.mem_append.1 hc with hm | hm
        · exact hw4 c hm
        · simp at hm; subst hm; exact hws
    · rw [if_neg hws] at h
      by_cases hc : ch = '.'
      · rw [if_pos hc] at h
        injection h with he
        subst he hc
        constructor
        · show newLit ++ P ++ [')'] ++ W1 ++ arrowLit ++ W2 ++ tupleLit ++ N ++ [','] ++ M
              ++ [']'] ++ W3 ++ [':'] ++ W4 ++ dotsLit.take 1
              = (newLit ++ P ++ [')'] ++ W1 ++ arrowLit ++ W2 ++ tupleLit ++ N ++ [','] ++ M
                ++ [']'] ++ W3 ++ [':'] ++ W4) ++ ['.']
          simp [List.append_assoc]
          rfl
        · exact ⟨⟨hi, hw4⟩, by omega⟩
      · rw [if_neg hc] at h
        exact absurd h (by simp)
  | dots P W1 W2 N M W3 W4 k =>
    rw [step] at h
    obtain ⟨hi, hk⟩ := hinv
    by_cases hc : ch = '.'
    · rw [if_pos hc] at h
      by_cases hk3 : k + 1 = 3
      · rw [if_pos hk3] at h
        exact absurd h (by simp)
      · rw [if_neg hk3] at h
        injection h with he
        subst he hc
        constructor
        · show newLit ++ P ++ [')'] ++ W1 ++ arrowLit ++ W2 ++ tupleLit ++ N ++ [','] ++ M
              ++ [']'] ++ W3 ++ [':'] ++ W4 ++ dotsLit.take (k + 1)
              = (newLit ++ P ++ [')'] ++ W1 ++ arrowLit ++ W2 ++ tupleLit ++ N ++ [','] ++ M
                ++ [']'] ++ W3 ++ [':'] ++ W4 ++ dotsLit.take k) ++ ['.']
          have hget : dotsLit.get? k = some '.' := by
            have h12 : k = 1 ∨ k = 2 := by omega
            rcases h12 with h1 | h1 <;> subst h1 <;> rfl
          rw [List.append_assoc _ (dotsLit.take k) ['.'],
            ← take_succ_of_get? dotsLit k '.' hget]
        · exact ⟨hi, by omega⟩
    · rw [if_neg hc] at h
      exact absurd h (by simp)

theorem step_accept_cons {st : MSt} {ch : Char} {g : RegexGroups}
    (h : step st ch = .accept g) (hinv : StInv st) :
    consFull g = consSt st ++ [ch] ∧ GroupsInv g := by
  cases st
  case dots P W1 W2 N M W3 W4 k =>
    rw [step] at h
    obtain ⟨hi, hk⟩ := hinv
    by_cases hc : ch = '.'
    · rw [if_pos hc] at h
      by_cases hk3 : k + 1 = 3
      · rw [if_pos hk3] at h
        injection h with he
        subst he hc
        have hk2 : k = 2 := by omega
        subst hk2
        obtain ⟨⟨⟨⟨⟨h1, h2, h3, h4⟩, h5, h6⟩, h7, h8⟩, h9⟩, h10⟩ := hi
        constructor
        · show newLit ++ P ++ [')'] ++ W1 ++ arrowLit ++ W2 ++ tupleLit ++ N ++ [','] ++ M
              ++ [']'] ++ W3 ++ [':'] ++ W4 ++ dotsLit
              = (newLit ++ P ++ [')'] ++ W1 ++ arrowLit ++ W2 ++ tupleLit ++ N ++ [','] ++ M
                ++ [']'] ++ W3 ++ [':'] ++ W4 ++ dotsLit.take 2) ++ ['.']
          rw [List.append_assoc _ (dotsLit.take 2) ['.']]
          rfl
        · exact ⟨h1, h2, h3, h4, h5, h6, h7, h8, h9, h10⟩
      · rw [if_neg hk3] at h
        exact absurd h (by simp)
    · rw [if_neg hc] at h
      exact absurd h (by simp)
  all_goals (
    rw [step] at h
    split at h <;> (try split at h) <;> simp at h)

theorem runM_sound {u : List Char} {st : MSt} {g : RegexGroups} {rest : List Char}
    (hinv : StInv st) (h : runM st u = some (g, rest)) :
    consFull g ++ rest = consSt st ++ u ∧ GroupsInv g := by
  induction u generalizing st with
  | nil => simp [runM] at h
  | cons c r ih =>
    rw [runM] at h
    cases hs : step st c with
    | reject => rw [hs] at h; simp at h
    | accept g2 =>
      rw [hs] at h
      injection h with h2
      injection h2 with hg hr
      subst hg hr
      obtain ⟨hc, hgi⟩ := step_accept_cons hs hinv
      refine ⟨?_, hgi⟩
      rw [hc]
      simp
    | next st' =>
      rw [hs] at h
      obtain ⟨hc, hinv'⟩ := step_next_cons hs hinv
      obtain ⟨he, hgi⟩ := ih hinv' h
      refine ⟨?_, hgi⟩
      rw [he, hc]
      simp

theorem tryMatch_sound {u r rest : List Char} (h : tryMatch u = some (r, rest)) :
    ∃ g, GroupsInv g ∧ r = replOf g ∧ u = consFull g ++ rest := by
  unfold tryMatch at h
  cases hr : runM (.lit 0) u with
  | none => rw [hr] at h; simp at h
  | some p =>
    rw [hr] at h
    obtain ⟨g, rest2⟩ := p
    injection h with h2
    injection h2 with h3 h4
    subst h3 h4
    obtain ⟨he, hgi⟩ := runM_sound (show StInv (.lit 0) by trivial) hr
    exact ⟨g, hgi, rfl, by simpa [consSt] using he.symm⟩

theorem tryMatch_none_iff {u : List Char} :
    tryMatch u = none ↔ runM (.lit 0) u = none := by
  unfold tryMatch
  cases runM (.lit 0) u <;> simp

theorem newLit_eq :
    newLit = ['d', 'e', 'f', ' ', '_', '_', 'n', 'e', 'w', '_', '_', '('] := rfl

theorem arrowLit_eq : arrowLit = ['-', '>'] := rfl

theorem tupleLit_eq : tupleLit = ['t', 'u', 'p', 'l', 'e', '['] := rfl

theorem dotsLit_eq : dotsLit = ['.', '.', '.'] := rfl

/-- A whitespace character is one of six concrete characters. -/
theorem wsB_cases {c : Char} (h : isWsB c = true) :
    c = ' ' ∨ c = '\t' ∨ c = '\n' ∨ c = '\r' ∨ c = '\x0B' ∨ c = '\x0C' := by
  simp [isWsB] at h
  tauto

theorem ws_ne_d {c : Char} (h : isWsB c = true) : c ≠ 'd' := by
  rcases wsB_cases h with h | h | h | h | h | h <;> subst h <;> decide

theorem ws_ne_rbrack {c : Char} (h : isWsB c = true) : c ≠ ']' := by
  rcases wsB_cases h with h | h | h | h | h | h <;> subst h <;> decide

theorem identStart_not_ws {c : Char} (h : isIdentStart c = true) : isWsB c = false := by
  by_contra hne
  simp at hne
  rcases wsB_cases hne with h2 | h2 | h2 | h2 | h2 | h2 <;> subst h2 <;> simp [isIdentStart] at h

theorem newLit_get_d {k : Nat} (h : newLit.get? k = some 'd') : k = 0 := by
  have hk := lt_of_get? _ _ _ h
  rw [newLit_eq] at h hk
  simp at hk
  interval_cases k <;> revert h <;> decide

theorem newLit_get_ws {k : Nat} {c : Char} (h : newLit.get? k = some c)
    (hw : isWsB c = true) : k = 3 ∧ c = ' ' := by
  have hm := mem_of_get? h
  rw [newLit_eq] at hm
  have hc : c = ' ' := by
    fin_cases hm <;> first | rfl | exact absurd hw (by decide)
  subst hc
  refine ⟨?_, rfl⟩
  have hk := lt_of_get? _ _ _ h
  rw [newLit_eq] at h hk
  simp at hk
  interval_cases k <;> revert h <;> decide

theorem newLit_get_lparen {k : Nat} (hk : k + 1 = newLit.length) :
    newLit.get? k = some '(' := by
  rw [newLit_eq] at hk ⊢
  simp at hk
  subst hk
  rfl

theorem tupleLit_get_mem {k : Nat} {c : Char} (h : tupleLit.get? k = some c) :
    c = 't' ∨ c = 'u' ∨ c = 'p' ∨ c = 'l' ∨ c = 'e' ∨ c = '[' := by
  have hm := mem_of_get? h
  rw [tupleLit_eq] at hm
  fin_cases hm <;> simp

theorem tupleLit_get_lbrack {k : Nat} (hk : k + 1 = tupleLit.length) :
    tupleLit.get? k = some '[' := by
  rw [tupleLit_eq] at hk ⊢
  simp at hk
  subst hk
  rfl

theorem argsRun {A : List Char} (hA : ')' ∉ A) (P1 t : List Char) :
    runM (.args P1) (A ++ t) = runM (.args (P1 ++ A)) t := by
  induction A generalizing P1 with
  | nil => simp
  | cons a A' ih =>
    rw [List.cons_append, runM]
    have hne : ¬a = ')' := fun he => hA (he ▸ List.mem_cons_self a A')
    have hstep : step (.args P1) a = .next (.args (P1 ++ [a])) := by
      rw [step, if_neg hne]
    rw [hstep]
    show runM (.args (P1 ++ [a])) (A' ++ t) = runM (.args (P1 ++ a :: A')) t
    rw [ih (fun hm => hA (List.mem_cons_of_mem a hm)) (P1 ++ [a])]
    simp

theorem w1Run {A : List Char} (hA : AllWs A) (P1 W11 t : List Char) :
    runM (.w1 P1 W11) (A ++ t) = runM (.w1 P1 (W11 ++ A)) t := by
  induction A generalizing W11 with
  | nil => simp
  | cons a A' ih =>
    rw [List.cons_append, runM]
    have hw : isWsB a = true := hA a (List.mem_cons_self a A')
    have hstep : step (.w1 P1 W11) a = .next (.w1 P1 (W11 ++ [a])) := by
      rw [step, if_pos hw]
    rw [hstep]
    show runM (.w1 P1 (W11 ++ [a])) (A' ++ t) = runM (.w1 P1 (W11 ++ a :: A')) t
    rw [ih (fun c hc => hA c (List.mem_cons_of_mem a hc)) (W11 ++ [a])]
    simp

theorem w2Run {A : List Char} (hA : AllWs A) (P1 W11 W21 t : List Char) :
    runM (.w2 P1 W11 W21) (A ++ t) = runM (.w2 P1 W11 (W21 ++ A)) t := by
  induction A generalizing W21 with
  | nil => simp
  | cons a A' ih =>
    rw [List.cons_append, runM]
    have hw : isWsB a = true := hA a (List.mem_cons_self a A')
    have hstep : step (.w2 P1 W11 W21) a = .next (.w2 P1 W11 (W21 ++ [a])) := by
      rw [step, if_pos hw]
    rw [hstep]
    show runM (.w2 P1 W11 (W21 ++ [a])) (A' ++ t) = runM (.w2 P1 W11 (W21 ++ a :: A')) t
    rw [ih (fun c hc => hA c (List.mem_cons_of_mem a hc)) (W21 ++ [a])]
    simp

theorem w3Run {A : List Char} (hA : AllWs A) (P1 W11 W21 N1 M1 W31 t : List Char) :
    runM (.w3 P1 W11 W21 N1 M1 W31) (A ++ t) = runM (.w3 P1 W11 W21 N1 M1 (W31 ++ A)) t := by
  induction A generalizing W31 with
  | nil => simp
  | cons a A' ih =>
    rw [List.cons_append, runM]
    have hw : isWsB a = true := hA a (List.mem_cons_self a A')
    have hstep : step (.w3 P1 W11 W21 N1 M1 W31) a = .next (.w3 P1 W11 W21 N1 M1 (W31 ++ [a])) := by
      rw [step, if_pos hw]
    rw [hstep]
    show runM (.w3 P1 W11 W21 N1 M1 (W31 ++ [a])) (A' ++ t)
        = runM (.w3 P1 W11 W21 N1 M1 (W31 ++ a :: A')) t
    rw [ih (fun c hc => hA c (List.mem_cons_of_mem a hc)) (W31 ++ [a])]
    simp

theorem w4Run {A : List Char} (hA : AllWs A) (P1 W11 W21 N1 M1 W31 W41 t : List Char) :
    runM (.w4 P1 W11 W21 N1 M1 W31 W41) (A ++ t)
      = runM (.w4 P1 W11 W21 N1 M1 W31 (W41 ++ A)) t := by
  induction A generalizing W41 with
  | nil => simp
  | cons a A' ih =>
    rw [List.cons_append, runM]
    have hw : isWsB a = true := hA a (List.mem_cons_self a A')
    have hstep : step (.w4 P1 W11 W21 N1 M1 W31 W41) a
        = .next (.w4 P1 W11 W21 N1 M1 W31 (W41 ++ [a])) := by
      rw [step, if_pos hw]
    rw [hstep]
    show runM (.w4 P1 W11 W21 N1 M1 W31 (W41 ++ [a])) (A' ++ t)
        = runM (.w4 P1 W11 W21 N1 M1 W31 (W41 ++ a :: A')) t
    rw [ih (fun c hc => hA c (List.mem_cons_of_mem a hc)) (W41 ++ [a])]
    simp

theorem midRun {A : List Char} (hA : ']' ∉ A) (P1 W11 W21 N1 M1 t : List Char) :
    runM (.mid P1 W11 W21 N1 M1) (A ++ t) = runM (.mid P1 W11 W21 N1 (M1 ++ A)) t := by
  induction A generalizing M1 with
  | nil => simp
  | cons a A' ih =>
    rw [List.cons_append, runM]
    have hne : ¬a = ']' := fun he => hA (he ▸ List.mem_cons_self a A')
    have hstep : step (.mid P1 W11 W21 N1 M1) a = .next (.mid P1 W11 W21 N1 (M1 ++ [a])) := by
      rw [step, if_neg hne]
    rw [hstep]
    show runM (.mid P1 W11 W21 N1 (M1 ++ [a])) (A' ++ t)
        = runM (.mid P1 W11 W21 N1 (M1 ++ a :: A')) t
    rw [ih (fun hm => hA (List.mem_cons_of_mem a hm)) (M1 ++ [a])]
    simp

theorem ic_not_ws {c : Char} (h : isIdentCont c = true) : isWsB c = false := by
  by_contra hne
  simp at hne
  rcases wsB_cases hne with h2 | h2 | h2 | h2 | h2 | h2 <;> subst h2 <;>
    simp [isIdentCont, isIdentStart] at h

theorem wsLitDeath {w : List Char} (hw : AllWs w) {e : Char} (he : e ∉ newLit)
    (k : Nat) (T' : List Char) : runM (.lit k) (w ++ e :: T') = none := by
  induction w generalizing k with
  | nil =>
    rw [List.nil_append, runM]
    have hstep : step (.lit k) e = .reject := by
      rw [step, if_neg]
      intro hsome
      exact he (mem_of_get? hsome)
    rw [hstep]
  | cons wc w' ih =>
    rw [List.cons_append, runM]
    have hwc : isWsB wc = true := hw wc (List.mem_cons_self wc w')
    by_cases hg : newLit.get? k = some wc
    · obtain ⟨hk3, hsp⟩ := newLit_get_ws hg hwc
      subst hk3
      have hstep : step (.lit 3) wc = .next (.lit 4) := by
        rw [step, if_pos hg, if_neg (by decide)]
      rw [hstep]
      exact ih (fun c hc => hw c (List.mem_cons_of_mem wc hc)) 4
    · have hstep : step (.lit k) wc = .reject := by rw [step, if_neg hg]
      rw [hstep]

theorem nDeath {nr : List Char} (hn : AllIC nr) {W3' : List Char} (hw3 : AllWs W3')
    (k : Nat) (T' : List Char) : runM (.lit k) (nr ++ (W3' ++ ':' :: T')) = none := by
  induction nr generalizing k with
  | nil => exact wsLitDeath hw3 (by decide) k T'
  | cons c nr' ih =>
    rw [List.cons_append, runM]
    have hic : isIdentCont c = true := hn c (List.mem_cons_self c nr')
    by_cases hg : newLit.get? k = some c
    · by_cases hk12 : k + 1 = newLit.length
      · have hlp := newLit_get_lparen hk12
        rw [hlp] at hg
        injection hg with hg2
        subst hg2
        exact absurd hic (by decide)
      · have hstep : step (.lit k) c = .next (.lit (k + 1)) := by
          rw [step, if_pos hg, if_neg hk12]
        rw [hstep]
        exact ih (fun x hx => hn x (List.mem_cons_of_mem c hx)) (k + 1)
    · have hstep : step (.lit k) c = .reject := by rw [step, if_neg hg]
      rw [hstep]

theorem tupDeath {nr : List Char} (hn : AllIC nr) {w : List Char} (hws : AllWs w)
    {k : Nat} (hk1 : 1 ≤ k) (hk5 : k ≤ 5) (P1 W11 W21 T' : List Char) :
    runM (.tup P1 W11 W21 k) (nr ++ (w ++ ':' :: T')) = none := by
  induction nr generalizing k with
  | nil =>
    rw [List.nil_append]
    cases w with
    | nil =>
      rw [List.nil_append, runM]
      have hstep : step (.tup P1 W11 W21 k) ':' = .reject := by
        rw [step, if_neg]
        intro hsome
        rcases tupleLit_get_mem hsome with h | h | h | h | h | h <;> exact absurd h (by decide)
      rw [hstep]
    | cons wc w' =>
      rw [List.cons_append, runM]
      have hwc : isWsB wc = true := hws wc (List.mem_cons_self wc w')
      have hstep : step (.tup P1 W11 W21 k) wc = .reject := by
        rw [step, if_neg]
        intro hsome
        rcases tupleLit_get_mem hsome with h | h | h | h | h | h <;>
          (subst h; exact absurd hwc (by decide))
      rw [hstep]
  | cons c nr' ih =>
    rw [List.cons_append, runM]
    have hic : isIdentCont c = true := hn c (List.mem_cons_self c nr')
    by_cases hg : tupleLit.get? k = some c
    · have hk4 : k ≤ 4 := by
        by_contra hgt
        have hk5' : k = 5 := by omega
        subst hk5'
        have hlb : tupleLit.get? 5 = some '[' := rfl
        rw [hlb] at hg
        injection hg with h2
        subst h2
        exact absurd hic (by decide)
      have hk6 : ¬(k + 1 = tupleLit.length) := by
        rw [tupleLit_eq]
        simp only [List.length_cons, List.length_nil]
        omega
      have hstep : step (.tup P1 W11 W21 k) c = .next (.tup P1 W11 W21 (k + 1)) := by
        rw [step, if_pos hg, if_neg hk6]
      rw [hstep]
      exact ih (fun x hx => hn x (List.mem_cons_of_mem c hx)) (by omega) (by omega)
    · have hstep : step (.tup P1 W11 W21 k) c = .reject := by rw [step, if_neg hg]
      rw [hstep]

theorem w2Death {N' : List Char} (hne : N' ≠ []) (hn : AllIC N') {w : List Char}
    (hws : AllWs w) (P1 W11 W21 T' : List Char) :
    runM (.w2 P1 W11 W21) (N' ++ (w ++ ':' :: T')) = none := by
  cases N' with
  | nil => exact absurd rfl hne
  | cons c N2 =>
    rw [List.cons_append, runM]
    have hic : isIdentCont c = true := hn c (List.mem_cons_self c N2)
    have hnws : isWsB c = false := ic_not_ws hic
    by_cases hct : c = 't'
    · subst hct
      have hstep : step (.w2 P1 W11 W21) 't' = .next (.tup P1 W11 W21 1) := by
        rw [step, if_neg (by decide), if_pos rfl]
      rw [hstep]
      exact tupDeath (fun x hx => hn x (List.mem_cons_of_mem 't' hx)) hws (by omega) (by omega)
        P1 W11 W21 T'
    · have hstep : step (.w2 P1 W11 W21) c = .reject := by
        rw [step, if_neg (by simp [hnws]), if_neg hct]
      rw [hstep]

theorem argsDeath {A : List Char} (hA : ')' ∉ A) {W1' W2' N' W3' : List Char}
    (hw1 : AllWs W1') (hw2 : AllWs W2') (hne : N' ≠ []) (hn : AllIC N') (hw3 : AllWs W3')
    (P1 T' : List Char) :
    runM (.args P1)
      (A ++ (')' :: (W1' ++ (arrowLit ++ (W2' ++ (N' ++ (W3' ++ ':' :: T'))))))) = none := by
  rw [argsRun hA, runM]
  by_cases hp : P1 ++ A = []
  · have hstep : step (.args (P1 ++ A)) ')' = .reject := by
      rw [step, if_pos rfl, if_pos hp]
    rw [hstep]
  · have hstep : step (.args (P1 ++ A)) ')' = .next (.w1 (P1 ++ A) []) := by
      rw [step, if_pos rfl, if_neg hp]
    rw [hstep]
    show runM (.w1 (P1 ++ A) [])
        (W1' ++ (arrowLit ++ (W2' ++ (N' ++ (W3' ++ ':' :: T'))))) = none
    rw [w1Run hw1]
    show runM (.w1 (P1 ++ A) ([] ++ W1'))
        ('-' :: '>' :: (W2' ++ (N' ++ (W3' ++ ':' :: T')))) = none
    rw [runM]
    have hstep2 : step (.w1 (P1 ++ A) ([] ++ W1')) '-' = .next (.gt (P1 ++ A) ([] ++ W1')) := by
      rw [step, if_neg (by decide), if_pos rfl]
    rw [hstep2]
    show runM (.gt (P1 ++ A) ([] ++ W1')) ('>' :: (W2' ++ (N' ++ (W3' ++ ':' :: T')))) = none
    rw [runM]
    have hstep3 : step (.gt (P1 ++ A) ([] ++ W1')) '>'
        = .next (.w2 (P1 ++ A) ([] ++ W1') []) := by
      rw [step, if_pos rfl]
    rw [hstep3]
    show runM (.w2 (P1 ++ A) ([] ++ W1') []) (W2' ++ (N' ++ (W3' ++ ':' :: T'))) = none
    rw [w2Run hw2]
    exact w2Death hne hn hw3 (P1 ++ A) ([] ++ W1') ([] ++ W2') T'

theorem litDeath {A : List Char} (hA : ')' ∉ A) {W1' W2' N' W3' : List Char}
    (hw1 : AllWs W1') (hw2 : AllWs W2') (hne : N' ≠ []) (hn : AllIC N') (hw3 : AllWs W3')
    (k : Nat) (T' : List Char) :
    runM (.lit k)
      (A ++ (')' :: (W1' ++ (arrowLit ++ (W2' ++ (N' ++ (W3' ++ ':' :: T'))))))) = none := by
  induction A generalizing k with
  | nil =>
    rw [List.nil_append, runM]
    have hstep : step (.lit k) ')' = .reject := by
      rw [step, if_neg]
      intro hsome
      exact absurd (mem_of_get? hsome) (by decide)
    rw [hstep]
  | cons a A' ih =>
    rw [List.cons_append, runM]
    by_cases hg : newLit.get? k = some a
    · by_cases hk12 : k + 1 = newLit.length
      · have hstep : step (.lit k) a = .next (.args []) := by
          rw [step, if_pos hg, if_pos hk12]
        rw [hstep]
        exact argsDeath (fun hm => hA (List.mem_cons_of_mem a hm)) hw1 hw2 hne hn hw3 [] T'
      · have hstep : step (.lit k) a = .next (.lit (k + 1)) := by
          rw [step, if_pos hg, if_neg hk12]
        rw [hstep]
        exact ih (fun hm => hA (List.mem_cons_of_mem a hm)) (k + 1)
    · have hstep : step (.lit k) a = .reject := by rw [step, if_neg hg]
      rw [hstep]

theorem DeadAll_append {a b T : List Char} (ha : DeadAll a (b ++ T)) (hb : DeadAll b T) :
    DeadAll (a ++ b) T := by
  intro i hi
  by_cases hia : i < a.length
  · have hdrop : (a ++ b).drop i = a.drop i ++ b := List.drop_append_of_le_length (by omega)
    rw [hdrop, List.append_assoc]
    exact ha i hia
  · have hdrop : (a ++ b).drop i = b.drop (i - a.length) := by
      rw [List.drop_append_eq_append_drop, List.drop_eq_nil_of_le (by omega), List.nil_append]
    rw [hdrop]
    have hlen : (a ++ b).length = a.length + b.length := List.length_append a b
    exact hb (i - a.length) (by omega)

theorem DeadAll_no_d {u : List Char} (hu : ∀ c ∈ u, c ≠ 'd') (T : List Char) :
    DeadAll u T := by
  intro i hi
  cases hd : u.drop i with
  | nil =>
    have := List.drop_eq_nil_iff.1 hd
    omega
  | cons c r =>
    have hc : c ∈ u := List.mem_of_mem_drop (by rw [hd]; exact List.mem_cons_self c r)
    rw [List.cons_append, runM]
    have hstep : step (.lit 0) c = .reject := by
      rw [step, if_neg]
      intro hsome
      have hd0 : newLit.get? 0 = some 'd' := rfl
      rw [hd0] at hsome
      injection hsome with h2
      exact hu c hc h2.symm
    rw [hstep]

theorem ws_no_d {w : List Char} (hw : AllWs w) : ∀ c ∈ w, c ≠ 'd' :=
  fun c hc => ws_ne_d (hw c hc)

theorem DeadAll_region1 {P : List Char} (hP : ')' ∉ P) {W1' W2' N' W3' : List Char}
    (hw1 : AllWs W1') (hw2 : AllWs W2') (hne : N' ≠ []) (hn : AllIC N') (hw3 : AllWs W3')
    (T' : List Char) :
    DeadAll (newLit ++ P ++ [')'])
      (W1' ++ (arrowLit ++ (W2' ++ (N' ++ (W3' ++ ':' :: T'))))) := by
  intro i hi
  have hilen : i ≤ (newLit ++ P).length := by
    have hlen : (newLit ++ P ++ [')']).length = (newLit ++ P).length + 1 := by
      simp
      omega
    omega
  have hdrop : (newLit ++ P ++ [')']).drop i = (newLit ++ P).drop i ++ [')'] :=
    List.drop_append_of_le_length hilen
  rw [hdrop, List.append_assoc, List.singleton_append]
  have hP' : ')' ∉ (newLit ++ P).drop i := by
    intro hm
    have := List.mem_of_mem_drop hm
    rw [List.mem_append] at this
    rcases this with h | h
    · exact absurd h (by decide)
    · exact hP h
  exact litDeath hP' hw1 hw2 hne hn hw3 0 T'

theorem DeadAll_regionN {N' : List Char} (hn : AllIC N') {W3' : List Char} (hw3 : AllWs W3')
    (T' : List Char) : DeadAll N' (W3' ++ ':' :: T') := by
  intro i hi
  exact nDeath (fun x hx => hn x (List.mem_of_mem_drop hx)) hw3 0 T'

theorem DeadAll_replOf {g : RegexGroups} (hg : GroupsInv g) (T : List Char) :
    DeadAll (replOf g) T := by
  obtain ⟨h1, h2, h3, h4, h5, h6, h7, h8, h9, h10⟩ := hg
  have hshape : replOf g = (newLit ++ g.P ++ [')'])
      ++ ((g.W1 ++ arrowLit ++ g.W2) ++ (g.N ++ (g.W3 ++ [':'] ++ g.W4 ++ dotsLit))) := by
    simp [replOf, List.append_assoc]
  rw [hshape]
  apply DeadAll_append
  · have hT : ((g.W1 ++ arrowLit ++ g.W2) ++ (g.N ++ (g.W3 ++ [':'] ++ g.W4 ++ dotsLit))) ++ T
        = g.W1 ++ (arrowLit ++ (g.W2 ++ (g.N ++ (g.W3 ++ ':' :: (g.W4 ++ (dotsLit ++ T)))))) := by
      simp [List.append_assoc]
    rw [hT]
    exact DeadAll_region1 h1 h3 h4 h5 h6 h9 (g.W4 ++ (dotsLit ++ T))
  · apply DeadAll_append
    · apply DeadAll_no_d
      rw [List.forall_mem_append, List.forall_mem_append]
      exact ⟨⟨ws_no_d h3, by decide⟩, ws_no_d h4⟩
    · apply DeadAll_append
      · have hT : (g.W3 ++ [':'] ++ g.W4 ++ dotsLit) ++ T
            = g.W3 ++ ':' :: (g.W4 ++ (dotsLit ++ T)) := by
          simp [List.append_assoc]
        rw [hT]
        exact DeadAll_regionN h6 h9 (g.W4 ++ (dotsLit ++ T))
      · apply DeadAll_no_d
        rw [List.forall_mem_append, List.forall_mem_append, List.forall_mem_append]
        refine ⟨⟨⟨ws_no_d h9, by decide⟩, ws_no_d h10⟩, by decide⟩

theorem ic_ne_colon {c : Char} (h : isIdentCont c = true) : c ≠ ':' :=
  fun he => absurd (he ▸ h) (by decide)

theorem ic_ne_dot {c : Char} (h : isIdentCont c = true) : c ≠ '.' :=
  fun he => absurd (he ▸ h) (by decide)

theorem ic_ne_rbrack {c : Char} (h : isIdentCont c = true) : c ≠ ']' :=
  fun he => absurd (he ▸ h) (by decide)

theorem w3closure {st : MSt} {c : Char} {st' : MSt} (h : step st c = .next st')
    (hst : isW3St st) : isW3St st' := by
  cases st
  case w3 P1 W11 W21 N1 M1 W31 =>
    rw [step] at h
    split at h
    · injection h with he
      subst he
      trivial
    · split at h
      · injection h with he
        subst he
        trivial
      · exact absurd h (by simp)
  case w4 P1 W11 W21 N1 M1 W31 W41 =>
    rw [step] at h
    split at h
    · injection h with he
      subst he
      trivial
    · split at h
      · injection h with he
        subst he
        trivial
      · exact absurd h (by simp)
  case dots P1 W11 W21 N1 M1 W31 W41 k =>
    rw [step] at h
    split at h
    · split at h
      · exact absurd h (by simp)
      · injection h with he
        subst he
        trivial
    · exact absurd h (by simp)
  all_goals exact False.elim hst

theorem w3phase_run (u : List Char) (st : MSt) (hst : isW3St st) :
    runPart st u = .rejected ∨ (∃ g2 r2, runPart st u = .accepted g2 r2)
      ∨ (∃ st2, runPart st u = .going st2 ∧ isW3St st2) := by
  induction u generalizing st with
  | nil => exact Or.inr (Or.inr ⟨st, rfl, hst⟩)
  | cons c r ih =>
    cases hs : step st c with
    | reject => exact Or.inl (by rw [runPart, hs])
    | accept g2 => exact Or.inr (Or.inl ⟨g2, r, by rw [runPart, hs]⟩)
    | next st2 =>
      have hst2 := w3closure hs hst
      rcases ih st2 hst2 with h | ⟨g2, r2, h⟩ | ⟨st3, h, h3⟩
      · exact Or.inl (by rw [runPart, hs]; exact h)
      · exact Or.inr (Or.inl ⟨g2, r2, by rw [runPart, hs]; exact h⟩)
      · exact Or.inr (Or.inr ⟨st3, by rw [runPart, hs]; exact h, h3⟩)

theorem mem_first_split {c : Char} {l : List Char} (h : c ∈ l) :
    ∃ a b, l = a ++ c :: b ∧ c ∉ a := by
  induction l with
  | nil => simp at h
  | cons x xs ih =>
    by_cases hx : x = c
    · subst hx
      exact ⟨[], xs, rfl, by simp⟩
    · rw [List.mem_cons] at h
      rcases h with h | h
      · exact absurd h.symm hx
      · obtain ⟨a, b, he, hna⟩ := ih h
        refine ⟨x :: a, b, by rw [List.cons_append, he], ?_⟩
        intro hm
        rw [List.mem_cons] at hm
        rcases hm with hm | hm
        · exact hx hm.symm
        · exact hna hm

theorem w3phaseAccept (P1 W11 W21 N1 M1 : List Char) {W3' W4' : List Char}
    (hw3 : AllWs W3') (hw4 : AllWs W4') (t : List Char) :
    runM (.w3 P1 W11 W21 N1 M1 []) (W3' ++ ':' :: (W4' ++ ('.' :: '.' :: '.' :: t)))
      = some (⟨P1, W11, W21, N1, M1, [] ++ W3', [] ++ W4'⟩, t) := by
  rw [w3Run hw3, runM]
  have hsc : step (.w3 P1 W11 W21 N1 M1 ([] ++ W3')) ':'
      = .next (.w4 P1 W11 W21 N1 M1 ([] ++ W3') []) := by
    rw [step, if_neg (by decide), if_pos rfl]
  rw [hsc]
  show runM (.w4 P1 W11 W21 N1 M1 ([] ++ W3') []) (W4' ++ ('.' :: '.' :: '.' :: t))
      = some (⟨P1, W11, W21, N1, M1, [] ++ W3', [] ++ W4'⟩, t)
  rw [w4Run hw4, runM]
  have hs1 : step (.w4 P1 W11 W21 N1 M1 ([] ++ W3') ([] ++ W4')) '.'
      = .next (.dots P1 W11 W21 N1 M1 ([] ++ W3') ([] ++ W4') 1) := by
    rw [step, if_neg (by decide), if_pos rfl]
  rw [hs1]
  show runM (.dots P1 W11 W21 N1 M1 ([] ++ W3') ([] ++ W4') 1) ('.' :: '.' :: t)
      = some (⟨P1, W11, W21, N1, M1, [] ++ W3', [] ++ W4'⟩, t)
  rw [runM]
  have hs2 : step (.dots P1 W11 W21 N1 M1 ([] ++ W3') ([] ++ W4') 1) '.'
      = .next (.dots P1 W11 W21 N1 M1 ([] ++ W3') ([] ++ W4') 2) := by
    rw [step, if_pos rfl, if_neg (by decide)]
  rw [hs2]
  show runM (.dots P1 W11 W21 N1 M1 ([] ++ W3') ([] ++ W4') 2) ('.' :: t)
      = some (⟨P1, W11, W21, N1, M1, [] ++ W3', [] ++ W4'⟩, t)
  rw [runM]
  have hs3 : step (.dots P1 W11 W21 N1 M1 ([] ++ W3') ([] ++ W4') 2) '.'
      = .accept ⟨P1, W11, W21, N1, M1, [] ++ W3', [] ++ W4'⟩ := by
    rw [step, if_pos rfl, if_pos rfl]
  rw [hs3]

theorem midAccept {P1 W11 W21 N1 M1 B : List Char} (hB : ']' ∉ B) (hBne : B ≠ [])
    {W3' W4' : List Char} (hw3 : AllWs W3') (hw4 : AllWs W4') (t : List Char) :
    runM (.mid P1 W11 W21 N1 M1)
        (B ++ (']' :: (W3' ++ ':' :: (W4' ++ ('.' :: '.' :: '.' :: t)))))
      = some (⟨P1, W11, W21, N1, M1 ++ B, [] ++ W3', [] ++ W4'⟩, t) := by
  rw [midRun hB, runM]
  have hne : ¬(M1 ++ B = []) := by
    intro he
    exact hBne (List.append_eq_nil.1 he).2
  have hstep : step (.mid P1 W11 W21 N1 (M1 ++ B)) ']'
      = .next (.w3 P1 W11 W21 N1 (M1 ++ B) []) := by
    rw [step, if_pos rfl, if_neg hne]
  rw [hstep]
  show runM (.w3 P1 W11 W21 N1 (M1 ++ B) []) (W3' ++ ':' :: (W4' ++ ('.' :: '.' :: '.' :: t)))
      = some (⟨P1, W11, W21, N1, M1 ++ B, [] ++ W3', [] ++ W4'⟩, t)
  exact w3phaseAccept P1 W11 W21 N1 (M1 ++ B) hw3 hw4 t

theorem fixDead (n : Nat) : ∀ u : List Char, u.length ≤ n → ∀ st : MSt, StInv st →
    runM st u = none → runM st (fix_new_signatures u) = none := by
  induction n with
  | zero =>
    intro u hu st _ _
    have hnil : u = [] := List.length_eq_zero.1 (by omega)
    subst hnil
    rw [fix_nil, runM]
  | succ n ih =>
    intro u hu st hinv hnone
    cases htm : tryMatch u with
    | none =>
      cases u with
      | nil => rw [fix_nil, runM]
      | cons c cs =>
        rw [fix_none_cons htm, runM]
        rw [runM] at hnone
        cases hs : step st c with
        | reject => rfl
        | accept g2 =>
          rw [hs] at hnone
          simp at hnone
        | next st2 =>
          rw [hs] at hnone
          have hnone2 : runM st2 cs = none := hnone
          have hlen : cs.length ≤ n := by
            simp at hu
            omega
          exact ih cs hlen st2 (step_next_cons hs hinv).2 hnone2
    | some pr =>
      obtain ⟨r, rest⟩ := pr
      obtain ⟨g, hgi, hr, hu_eq⟩ := tryMatch_sound htm
      subst hr
      rw [fix_some htm]
      obtain ⟨h1, h2, h3, h4, h5, h6, h7, h8, h9, h10⟩ := hgi
      have hF : replOf g ++ fix_new_signatures rest
          = newLit ++ (g.P ++ (')' :: (g.W1 ++ (arrowLit ++ (g.W2 ++ (g.N ++ (g.W3 ++ ':' ::
              (g.W4 ++ (dotsLit ++ fix_new_signatures rest))))))))) := by
        simp [replOf, List.append_assoc]
      have hD : replOf g ++ fix_new_signatures rest
          = 'd' :: (['e', 'f', ' ', '_', '_', 'n', 'e', 'w', '_', '_', '(']
              ++ (g.P ++ (')' :: (g.W1 ++ (arrowLit ++ (g.W2 ++ (g.N ++ (g.W3 ++ ':' ::
                (g.W4 ++ (dotsLit ++ fix_new_signatures rest)))))))))) := by
        rw [hF]
        rfl
      cases st with
      | lit k =>
        by_cases hk0 : k = 0
        · subst hk0
          unfold tryMatch at htm
          rw [hnone] at htm
          simp at htm
        · rw [hD, runM]
          have hstep : step (.lit k) 'd' = .reject := by
            rw [step, if_neg]
            intro hsome
            exact hk0 (newLit_get_d hsome)
          rw [hstep]
      | args P1 =>
        have hshape : replOf g ++ fix_new_signatures rest
            = (newLit ++ g.P) ++ (')' :: (g.W1 ++ (arrowLit ++ (g.W2 ++ (g.N ++ (g.W3 ++ ':' ::
                (g.W4 ++ (dotsLit ++ fix_new_signatures rest)))))))) := by
          simp [replOf, List.append_assoc]
        rw [hshape]
        have hA : ')' ∉ newLit ++ g.P := by
          rw [List.mem_append]
          rintro (hm | hm)
          · exact absurd hm (by decide)
          · exact h1 hm
        exact argsDeath hA h3 h4 h5 h6 h9 P1 (g.W4 ++ (dotsLit ++ fix_new_signatures rest))
      | w1 P1 W11 =>
        rw [hD, runM]
        have hstep : step (.w1 P1 W11) 'd' = .reject := by
          rw [step, if_neg (by decide), if_neg (by decide)]
        rw [hstep]
      | gt P1 W11 =>
        rw [hD, runM]
        have hstep : step (.gt P1 W11) 'd' = .reject := by
          rw [step, if_neg (by decide)]
        rw [hstep]
      | w2 P1 W11 W21 =>
        rw [hD, runM]
        have hstep : step (.w2 P1 W11 W21) 'd' = .reject := by
          rw [step, if_neg (by decide), if_neg (by decide)]
        rw [hstep]
      | tup P1 W11 W21 k =>
        rw [hD, runM]
        have hstep : step (.tup P1 W11 W21 k) 'd' = .reject := by
          rw [step, if_neg]
          intro hsome
          rcases tupleLit_get_mem hsome with h | h | h | h | h | h <;> exact absurd h (by decide)
        rw [hstep]
      | ist P1 W11 W21 =>
        rw [hF]
        generalize g.P ++ (')' :: (g.W1 ++ (arrowLit ++ (g.W2 ++ (g.N ++ (g.W3 ++ ':' ::
            (g.W4 ++ (dotsLit ++ fix_new_signatures rest)))))))) = X
        show runM (.ist P1 W11 W21)
            ('d' :: 'e' :: 'f' :: ' ' :: (['_', '_', 'n', 'e', 'w', '_', '_', '('] ++ X)) = none
        rw [runM]
        have hs1 : step (.ist P1 W11 W21) 'd' = .next (.idn P1 W11 W21 ['d']) := by
          rw [step, if_pos (by decide)]
        rw [hs1]
        show runM (.idn P1 W11 W21 ['d'])
            ('e' :: 'f' :: ' ' :: (['_', '_', 'n', 'e', 'w', '_', '_', '('] ++ X)) = none
        rw [runM]
        have hs2 : step (.idn P1 W11 W21 ['d']) 'e'
            = .next (.idn P1 W11 W21 (['d'] ++ ['e'])) := by
          rw [step, if_pos (by decide)]
        rw [hs2]
        show runM (.idn P1 W11 W21 (['d'] ++ ['e']))
            ('f' :: ' ' :: (['_', '_', 'n', 'e', 'w', '_', '_', '('] ++ X)) = none
        rw [runM]
        have hs3 : step (.idn P1 W11 W21 (['d'] ++ ['e'])) 'f'
            = .next (.idn P1 W11 W21 (['d'] ++ ['e'] ++ ['f'])) := by
          rw [step, if_pos (by decide)]
        rw [hs3]
        show runM (.idn P1 W11 W21 (['d'] ++ ['e'] ++ ['f']))
            (' ' :: (['_', '_', 'n', 'e', 'w', '_', '_', '('] ++ X)) = none
        rw [runM]
        have hs4 : step (.idn P1 W11 W21 (['d'] ++ ['e'] ++ ['f'])) ' ' = .reject := by
          rw [step, if_neg (by decide), if_neg (by decide)]
        rw [hs4]
      | idn P1 W11 W21 N1 =>
        rw [hF]
        generalize g.P ++ (')' :: (g.W1 ++ (arrowLit ++ (g.W2 ++ (g.N ++ (g.W3 ++ ':' ::
            (g.W4 ++ (dotsLit ++ fix_new_signatures rest)))))))) = X
        show runM (.idn P1 W11 W21 N1)
            ('d' :: 'e' :: 'f' :: ' ' :: (['_', '_', 'n', 'e', 'w', '_', '_', '('] ++ X)) = none
        rw [runM]
        have hs1 : step (.idn P1 W11 W21 N1) 'd' = .next (.idn P1 W11 W21 (N1 ++ ['d'])) := by
          rw [step, if_pos (by decide)]
        rw [hs1]
        show runM (.idn P1 W11 W21 (N1 ++ ['d']))
            ('e' :: 'f' :: ' ' :: (['_', '_', 'n', 'e', 'w', '_', '_', '('] ++ X)) = none
        rw [runM]
        have hs2 : step (.idn P1 W11 W21 (N1 ++ ['d'])) 'e'
            = .next (.idn P1 W11 W21 (N1 ++ ['d'] ++ ['e'])) := by
          rw [step, if_pos (by decide)]
        rw [hs2]
        show runM (.idn P1 W11 W21 (N1 ++ ['d'] ++ ['e']))
            ('f' :: ' ' :: (['_', '_', 'n', 'e', 'w', '_', '_', '('] ++ X)) = none
        rw [runM]
        have hs3 : step (.idn P1 W11 W21 (N1 ++ ['d'] ++ ['e'])) 'f'
            = .next (.idn P1 W11 W21 (N1 ++ ['d'] ++ ['e'] ++ ['f'])) := by
          rw [step, if_pos (by decide)]
        rw [hs3]
        show runM (.idn P1 W11 W21 (N1 ++ ['d'] ++ ['e'] ++ ['f']))
            (' ' :: (['_', '_', 'n', 'e', 'w', '_', '_', '('] ++ X)) = none
        rw [runM]
        have hs4 : step (.idn P1 W11 W21 (N1 ++ ['d'] ++ ['e'] ++ ['f'])) ' ' = .reject := by
          rw [step, if_neg (by decide), if_neg (by decide)]
        rw [hs4]
      | mid P1 W11 W21 N1 M1 =>
        by_cases hbr : ']' ∈ g.P
        · obtain ⟨Pa, Pb, hPsplit, hPa⟩ := mem_first_split hbr
          have hA : ']' ∉ newLit ++ Pa := by
            rw [List.mem_append]
            rintro (hm | hm)
            · exact absurd hm (by decide)
            · exact hPa hm
          have hFshape : replOf g ++ fix_new_signatures rest
              = (newLit ++ Pa) ++ (']' :: ((Pb ++ (')' :: (g.W1 ++ (arrowLit ++ g.W2))))
                ++ (g.N ++ (g.W3 ++ ':' ::
                  (g.W4 ++ (dotsLit ++ fix_new_signatures rest)))))) := by
            simp [replOf, hPsplit, List.append_assoc]
          rw [hFshape, midRun hA, runM]
          have hne_acc : ¬(M1 ++ (newLit ++ Pa) = []) := by simp [newLit_eq]
          have hstepbr : step (.mid P1 W11 W21 N1 (M1 ++ (newLit ++ Pa))) ']'
              = .next (.w3 P1 W11 W21 N1 (M1 ++ (newLit ++ Pa)) []) := by
            rw [step, if_pos rfl, if_neg hne_acc]
          rw [hstepbr]
          rcases w3phase_run (Pb ++ (')' :: (g.W1 ++ (arrowLit ++ g.W2))))
              (.w3 P1 W11 W21 N1 (M1 ++ (newLit ++ Pa)) []) trivial with
            hrej | hacc2 | hgo2
          · show runM (.w3 P1 W11 W21 N1 (M1 ++ (newLit ++ Pa)) [])
                ((Pb ++ (')' :: (g.W1 ++ (arrowLit ++ g.W2))))
                  ++ (g.N ++ (g.W3 ++ ':' ::
                    (g.W4 ++ (dotsLit ++ fix_new_signatures rest))))) = none
            rw [runM_append, hrej]
          · obtain ⟨g2, r2, hacc⟩ := hacc2
            exfalso
            rw [hu_eq] at hnone
            have hOshape : consFull g ++ rest
                = (newLit ++ Pa) ++ (']' :: ((Pb ++ (')' :: (g.W1 ++ (arrowLit ++ g.W2))))
                  ++ (tupleLit ++ (g.N ++ (',' :: (g.M ++ (']' :: (g.W3 ++ ':' ::
                    (g.W4 ++ (dotsLit ++ rest)))))))))) := by
              simp [consFull, hPsplit, List.append_assoc]
            rw [hOshape, midRun hA, runM, hstepbr] at hnone
            have hnone2 : runM (.w3 P1 W11 W21 N1 (M1 ++ (newLit ++ Pa)) [])
                ((Pb ++ (')' :: (g.W1 ++ (arrowLit ++ g.W2))))
                  ++ (tupleLit ++ (g.N ++ (',' :: (g.M ++ (']' :: (g.W3 ++ ':' ::
                    (g.W4 ++ (dotsLit ++ rest))))))))) = none := hnone
            rw [runM_append, hacc] at hnone2
            simp at hnone2
          · obtain ⟨st4, hgo, hst4⟩ := hgo2
            show runM (.w3 P1 W11 W21 N1 (M1 ++ (newLit ++ Pa)) [])
                ((Pb ++ (')' :: (g.W1 ++ (arrowLit ++ g.W2))))
                  ++ (g.N ++ (g.W3 ++ ':' ::
                    (g.W4 ++ (dotsLit ++ fix_new_signatures rest))))) = none
            rw [runM_append, hgo]
            cases hN : g.N with
            | nil => exact absurd hN h5
            | cons N0 N2 =>
              have hic : isIdentCont N0 = true :=
                h6 N0 (by rw [hN]; exact List.mem_cons_self N0 N2)
              show runM st4 ((N0 :: N2) ++ (g.W3 ++ ':' ::
                  (g.W4 ++ (dotsLit ++ fix_new_signatures rest)))) = none
              rw [List.cons_append, runM]
              have hstepN : step st4 N0 = .reject := by
                cases st4
                case w3 Q1 Q2 Q3 Q4 Q5 Q6 =>
                  rw [step, if_neg (by simp [ic_not_ws hic]), if_neg (ic_ne_colon hic)]
                case w4 Q1 Q2 Q3 Q4 Q5 Q6 Q7 =>
                  rw [step, if_neg (by simp [ic_not_ws hic]), if_neg (ic_ne_dot hic)]
                case dots Q1 Q2 Q3 Q4 Q5 Q6 Q7 qk =>
                  rw [step, if_neg (ic_ne_dot hic)]
                all_goals exact False.elim hst4
              rw [hstepN]
        · exfalso
          rw [hu_eq] at hnone
          have hBmem : ']' ∉ newLit ++ (g.P ++ (')' :: (g.W1 ++ (arrowLit ++ (g.W2
              ++ (tupleLit ++ (g.N ++ (',' :: g.M)))))))) := by
            intro hm
            simp only [List.mem_append, List.mem_cons] at hm
            rcases hm with hm | hm | hm | hm | hm | hm | hm | hm | hm | hm
            · exact absurd hm (by decide)
            · exact hbr hm
            · exact absurd hm (by decide)
            · exact absurd (h3 ']' hm) (by decide)
            · exact absurd hm (by decide)
            · exact absurd (h4 ']' hm) (by decide)
            · exact absurd hm (by decide)
            · exact absurd (h6 ']' hm) (by decide)
            · exact absurd hm (by decide)
            · exact h7 hm
          have hOshape : consFull g ++ rest
              = (newLit ++ (g.P ++ (')' :: (g.W1 ++ (arrowLit ++ (g.W2 ++ (tupleLit
                  ++ (g.N ++ (',' :: g.M)))))))))
                ++ (']' :: (g.W3 ++ ':' :: (g.W4 ++ ('.' :: '.' :: '.' :: rest)))) := by
            simp [consFull, dotsLit_eq, List.append_assoc]
          rw [hOshape] at hnone
          rw [midAccept hBmem (by simp [newLit_eq]) h9 h10 rest] at hnone
          simp at hnone
      | w3 P1 W11 W21 N1 M1 W31 =>
        rw [hD, runM]
        have hstep : step (.w3 P1 W11 W21 N1 M1 W31) 'd' = .reject := by
          rw [step, if_neg (by decide), if_neg (by decide)]
        rw [hstep]
      | w4 P1 W11 W21 N1 M1 W31 W41 =>
        rw [hD, runM]
        have hstep : step (.w4 P1 W11 W21 N1 M1 W31 W41) 'd' = .reject := by
          rw [step, if_neg (by decide), if_neg (by decide)]
        rw [hstep]
      | dots P1 W11 W21 N1 M1 W31 W41 k =>
        rw [hD, runM]
        have hstep : step (.dots P1 W11 W21 N1 M1 W31 W41 k) 'd' = .reject := by
          rw [step, if_neg (by decide)]
        rw [hstep]

theorem fixNoMatch (n : Nat) : ∀ s : List Char, s.length ≤ n → ∀ i : Nat,
    runM (.lit 0) ((fix_new_signatures s).drop i) = none := by
  induction n with
  | zero =>
    intro s hs i
    have hnil : s = [] := List.length_eq_zero.1 (by omega)
    subst hnil
    rw [fix_nil]
    simp [runM]
  | succ n ih =>
    intro s hs i
    cases htm : tryMatch s with
    | none =>
      cases s with
      | nil =>
        rw [fix_nil]
        simp [runM]
      | cons c cs =>
        rw [fix_none_cons htm]
        cases i with
        | succ j =>
          rw [List.drop_succ_cons]
          exact ih cs (by simp at hs; omega) j
        | zero =>
          rw [List.drop_zero]
          have hnone : runM (.lit 0) (c :: cs) = none := tryMatch_none_iff.1 htm
          rw [runM] at hnone ⊢
          cases hstep : step (.lit 0) c with
          | reject => rfl
          | accept g2 =>
            rw [hstep] at hnone
            simp at hnone
          | next st2 =>
            rw [hstep] at hnone
            have hnone2 : runM st2 cs = none := hnone
            exact fixDead cs.length cs (le_refl cs.length) st2
              (step_next_cons hstep (show StInv (.lit 0) by trivial)).2 hnone2
    | some pr =>
      obtain ⟨r, rest⟩ := pr
      obtain ⟨g, hgi, hr, hs_eq⟩ := tryMatch_sound htm
      subst hr
      rw [fix_some htm]
      by_cases hi : i < (replOf g).length
      · have hdrop : (replOf g ++ fix_new_signatures rest).drop i
            = (replOf g).drop i ++ fix_new_signatures rest :=
          List.drop_append_of_le_length (by omega)
        rw [hdrop]
        exact DeadAll_replOf hgi (fix_new_signatures rest) i hi
      · have hdrop : (replOf g ++ fix_new_signatures rest).drop i
            = (fix_new_signatures rest).drop (i - (replOf g).length) := by
          rw [List.drop_append_eq_append_drop, List.drop_eq_nil_of_le (by omega),
            List.nil_append]
        rw [hdrop]
        have hrest : rest.length ≤ n := by
          have := tryMatch_rest_lt htm
          omega
        exact ih rest hrest (i - (replOf g).length)

theorem fix_fixed (t : List Char) (hnm : ∀ i : Nat, runM (.lit 0) (t.drop i) = none) :
    fix_new_signatures t = t := by
  induction t with
  | nil => exact fix_nil
  | cons c cs ih =>
    have h0 : tryMatch (c :: cs) = none := tryMatch_none_iff.2 (by simpa using hnm 0)
    rw [fix_none_cons h0, ih (fun i => by simpa using hnm (i + 1))]

/-- C10: `fix_new_signatures` is idempotent: for every input `s`,
`fix_new_signatures (fix_new_signatures s) = fix_new_signatures s`, because a
rewritten `__new__` signature ends in a bare class name and no longer matches
the tuple-return pattern (no suffix of the replacement, with any continuation,
matches it, and the recursively fixed tail has no match at any position). -/
theorem fix_new_signatures_idempotent (s : List Char) :
    fix_new_signatures (fix_new_signatures s) = fix_new_signatures s :=
  fix_fixed (fix_new_signatures s) (fun i => fixNoMatch s.length s (le_refl s.length) i)

end FixStubs
